import Mathlib

/-!
# Segment of an append-only commit log

A shallow embedding of `internal/log/segment.go`.  A segment pairs a store
file (length-framed records) with an index file (fixed-width entries mapping a
relative offset to a byte position in the store).

Machine integers are natural numbers; every place where the Go code computes
in `uint64`, `uint32` or `int64` reduces explicitly.  Operations that talk to
the operating system take the outcome of that interaction as an explicit
argument (`none` = the operating system reported no failure).
-/

deriving instance DecidableEq for Except

namespace Log

/-! ## Machine arithmetic -/

/-- Number of values of a Go `uint64`. -/
def u64 : Nat := 2 ^ 64

/-- Number of values of a Go `uint32`. -/
def u32 : Nat := 2 ^ 32

/-- Go `a - b` on `uint64` operands (wraps around below zero). -/
def sub64 (a b : Nat) : Nat := (a % u64 + u64 - b % u64) % u64

/-- Go `a + b` on `uint64` operands (wraps around at `2 ^ 64`). -/
def add64 (a b : Nat) : Nat := (a + b) % u64

/-- Go conversion `uint32(x)` of a `uint64`. -/
def toU32 (x : Nat) : Nat := x % u32

/-- Go conversion `int64(x)` of a `uint64`: the two's complement reading. -/
def toInt64 (x : Nat) : Int :=
  if x % u64 < 2 ^ 63 then ((x % u64 : Nat) : Int) else ((x % u64 : Nat) : Int) - (u64 : Int)

/-! ## Data model -/

/-- Byte strings (file contents, serialised records): one natural number below 256 per byte. -/
abbrev Bytes := List Nat

/-- Error conditions the segment can surface. -/
inductive Error where
  /-- The condition `io.EOF`: capacity exhausted, no more data. -/
  | EOF
  /-- No index entry for the ordinal asked for. -/
  | notFound
  /-- A store position outside the written region. -/
  | outOfRange
  /-- A failure reported by the operating system. -/
  | osFailure
  /-- A failure of the record (de)serialiser. -/
  | encoding
  deriving DecidableEq, Repr

/-- The record `api.Record`: a payload and the absolute offset assigned by the segment. -/
structure Record where
  Value : Bytes
  Offset : Nat
  deriving DecidableEq, Repr

/-- The external serialiser used by the segment (`proto.Marshal`, `proto.Unmarshal`). -/
structure Codec where
  Marshal : Record → Except Error Bytes
  Unmarshal : Bytes → Except Error Record

/-- Modelled from the spec: the configuration type `Config`, whose declaration is not part of the
segment source.  Both ceilings are `uint64` values. -/
structure SegmentConfig where
  MaxStoreBytes : Nat
  MaxIndexBytes : Nat
  deriving DecidableEq, Repr

/-- Modelled from the spec: `Config` wraps the segment ceilings (`c.Segment.MaxStoreBytes`). -/
structure Config where
  Segment : SegmentConfig
  deriving DecidableEq, Repr

/-- Modelled from the spec: width in bytes of the length word in front of every store entry. -/
def lenWidth : Nat := 8

/-- Modelled from the spec: width in bytes of one index entry (4-byte offset, 8-byte position). -/
def EntWidth : Nat := 12

/-- Big-endian encoding of a `uint64` in eight bytes. -/
def be64 (n : Nat) : Bytes :=
  [n / 2 ^ 56 % 256, n / 2 ^ 48 % 256, n / 2 ^ 40 % 256, n / 2 ^ 32 % 256,
   n / 2 ^ 24 % 256, n / 2 ^ 16 % 256, n / 2 ^ 8 % 256, n % 256]

/-- Big-endian reading of a byte string as a natural number. -/
def beDecode (bs : Bytes) : Nat := bs.foldl (fun acc b => acc * 256 + b) 0

/-! ## Store -/

/-- Modelled from the spec: the store, an append-only file of entries
`[8-byte big-endian length][payload]` together with its running size.  `file` is the file as a
reader of the same process observes it (buffered writes included). -/
structure Store where
  file : Bytes
  size : Nat
  deriving DecidableEq, Repr

/-- Modelled from the spec: `NewStore` wraps an opened file; `size` starts as the file length. -/
def NewStore (file : Bytes) (fault : Option Error) : Except Error Store :=
  match fault with
  | some e => .error e
  | none => .ok { file := file, size := file.length }

/-- Modelled from the spec: `Store.Append` writes the payload behind its 8-byte length at the end
of the file and returns the bytes written, the position where the entry begins, and the grown
store.  An operating-system failure is surfaced and the store keeps its state. -/
def Store.Append (s : Store) (p : Bytes) (fault : Option Error) :
    Except Error (Nat × Nat × Store) :=
  match fault with
  | some e => .error e
  | none =>
    let pos := s.size
    let w := lenWidth + p.length
    .ok (w, pos, { file := s.file ++ (be64 p.length ++ p), size := s.size + w })

/-- Modelled from the spec: `Store.Read` reads the 8-byte length at `pos`, then exactly that many
bytes right behind it; a position outside the written region is out of range. -/
def Store.Read (s : Store) (pos : Nat) (fault : Option Error) : Except Error Bytes :=
  match fault with
  | some e => .error e
  | none =>
    if pos + lenWidth ≤ s.size then
      let n := beDecode ((s.file.drop pos).take lenWidth)
      if pos + lenWidth + n ≤ s.size then
        .ok ((s.file.drop (pos + lenWidth)).take n)
      else .error .outOfRange
    else .error .outOfRange

/-- Modelled from the spec: `Store.Close` flushes and syncs; what is left is the file. -/
def Store.Close (s : Store) (fault : Option Error) : Except Error Bytes :=
  match fault with
  | some e => .error e
  | none => .ok s.file

/-! ## Index -/

/-- Modelled from the spec: the index, a sequence of fixed-width entries
`(relative offset : uint32, position : uint64)` in the order written, the number of bytes
logically written, and the capacity of the pre-allocated backing region. -/
structure index where
  entries : List (Nat × Nat)
  size : Nat
  cap : Nat
  deriving DecidableEq, Repr

/-- Modelled from the spec: `NewIndex` over an index file; the logical size is the size of the
file found, the backing region is sized to `MaxIndexBytes`. -/
def NewIndex (file : List (Nat × Nat)) (c : Config) (fault : Option Error) : Except Error index :=
  match fault with
  | some e => .error e
  | none => .ok { entries := file, size := EntWidth * file.length, cap := c.Segment.MaxIndexBytes }

/-- Modelled from the spec: `index.Write` appends one entry at the logical end, and reports the
capacity-exhausted condition when the backing region has no room for another entry. -/
def index.Write (i : index) (off pos : Nat) : Except Error index :=
  if i.cap < i.size + EntWidth then .error .EOF
  else .ok { i with entries := i.entries ++ [(off, pos)], size := i.size + EntWidth }

/-- Modelled from the spec: `index.Read`; an ordinal `≥ 0` reads the entry at that ordinal, `-1`
reads the last entry written, and there is no entry for anything else. -/
def index.Read (i : index) (idx : Int) : Except Error (Nat × Nat) :=
  if idx = -1 then
    match i.entries.getLast? with
    | some e => .ok e
    | none => .error .notFound
  else if 0 ≤ idx then
    match i.entries[idx.toNat]? with
    | some e => .ok e
    | none => .error .notFound
  else .error .notFound

/-- Modelled from the spec: `index.Close` truncates the file to the logical size and syncs it;
what is left is exactly the entries written. -/
def index.Close (i : index) (fault : Option Error) : Except Error (List (Nat × Nat)) :=
  match fault with
  | some e => .error e
  | none => .ok i.entries

/-! ## Segment -/

/-- The two files `<baseOffset>.store` and `<baseOffset>.index` of a directory; `none` when the
file does not exist. -/
structure Files where
  store : Option Bytes
  index : Option (List (Nat × Nat))
  deriving DecidableEq, Repr

/-- A directory that holds neither file. -/
def Files.empty : Files := { store := none, index := none }

/-- Outcomes of the four fallible steps of `NewSegment`, in source order. -/
structure OpenFaults where
  openStore : Option Error
  newStore : Option Error
  openIndex : Option Error
  newIndex : Option Error
  deriving DecidableEq, Repr

/-- No failure while opening. -/
def OpenFaults.none : OpenFaults :=
  { openStore := Option.none, newStore := Option.none,
    openIndex := Option.none, newIndex := Option.none }

/-- The call `os.OpenFile` with `O_CREATE`: an absent file is created empty. -/
def OpenFile {α : Type} (f : Option (List α)) (fault : Option Error) : Except Error (List α) :=
  match fault with
  | some e => .error e
  | none => .ok (f.getD [])

/-- The struct `Segment`. -/
structure Segment where
  store : Store
  index : index
  baseOffset : Nat
  NextOffset : Nat
  config : Config
  deriving DecidableEq, Repr

/-- The constructor `NewSegment` (segment.go, lines 19-58). -/
def NewSegment (dir : Files) (baseOffset : Nat) (c : Config) (faults : OpenFaults) :
    Except Error Segment :=
  match OpenFile dir.store faults.openStore with
  | .error e => .error e
  | .ok storeFile =>
    match NewStore storeFile faults.newStore with
    | .error e => .error e
    | .ok store =>
      match OpenFile dir.index faults.openIndex with
      | .error e => .error e
      | .ok indexFile =>
        match NewIndex indexFile c faults.newIndex with
        | .error e => .error e
        | .ok ix =>
          match ix.Read (-1) with
          | .error _ =>
            .ok { store := store, index := ix, baseOffset := baseOffset,
                  NextOffset := baseOffset, config := c }
          | .ok (off, _) =>
            .ok { store := store, index := ix, baseOffset := baseOffset,
                  NextOffset := add64 (add64 baseOffset off) 1, config := c }

/-- Everything a call of `Segment.Append` leaves behind: the two results, the segment, and the
caller's record (which the method writes to). -/
structure AppendResult where
  offset : Nat
  err : Option Error
  seg : Segment
  record : Record
  deriving DecidableEq, Repr

/-- The method `Segment.Append` (segment.go, lines 60-85). -/
def Segment.Append (cd : Codec) (s : Segment) (record : Record) (fault : Option Error) :
    AppendResult :=
  let cur := s.NextOffset
  let record := { record with Offset := cur }
  match cd.Marshal record with
  | .error e => { offset := 0, err := some e, seg := s, record := record }
  | .ok p =>
    match s.store.Append p fault with
    | .error e => { offset := 0, err := some e, seg := s, record := record }
    | .ok (_, pos, store) =>
      let s := { s with store := store }
      match s.index.Write (toU32 (sub64 s.NextOffset s.baseOffset)) pos with
      | .error e => { offset := 0, err := some e, seg := s, record := record }
      | .ok ix =>
        let s := { s with index := ix }
        { offset := cur, err := none,
          seg := { s with NextOffset := add64 s.NextOffset 1 }, record := record }

/-- The method `Segment.Read` (segment.go, lines 87-102). -/
def Segment.Read (cd : Codec) (s : Segment) (off : Nat) (fault : Option Error) :
    Except Error Record :=
  match s.index.Read (toInt64 (sub64 off s.baseOffset)) with
  | .error e => .error e
  | .ok (_, pos) =>
    match s.store.Read pos fault with
    | .error e => .error e
    | .ok p => cd.Unmarshal p

/-- The method `Segment.IsMaxed` (segment.go, lines 104-107). -/
def Segment.IsMaxed (s : Segment) : Bool :=
  decide (s.store.size ≥ s.config.Segment.MaxStoreBytes) ||
    decide (s.index.size ≥ s.config.Segment.MaxIndexBytes)

/-- The method `Segment.Close` (segment.go, lines 125-135): index first, then store. -/
def Segment.Close (s : Segment) (indexFault storeFault : Option Error) : Except Error Files :=
  match s.index.Close indexFault with
  | .error e => .error e
  | .ok ix =>
    match s.store.Close storeFault with
    | .error e => .error e
    | .ok st => .ok { store := some st, index := some ix }

/-- The function `nearestMultiple` (segment.go, lines 137-139); division by zero panics. -/
def nearestMultiple (j k : Nat) : Option Nat :=
  if k = 0 then none else some ((j / k) * k % u64)

/-! ## Runs of `Append` calls -/

/-- One `Append` call of a run: the record passed in and the outcome of the store write
(`none` = the operating system reported no failure). -/
structure Call where
  record : Record
  fault : Option Error
  deriving DecidableEq, Repr

/-- The results of a run of `Append` calls, in call order. -/
def Segment.results (cd : Codec) (s : Segment) : List Call → List AppendResult
  | [] => []
  | c :: cs => s.Append cd c.record c.fault :: Segment.results cd (s.Append cd c.record c.fault).seg cs

/-- The segment a run of `Append` calls leaves behind. -/
def Segment.after (cd : Codec) (s : Segment) : List Call → Segment
  | [] => s
  | c :: cs => Segment.after cd (s.Append cd c.record c.fault).seg cs

/-- The results of the calls of a run that returned no error. -/
def Segment.successes (cd : Codec) (s : Segment) (cs : List Call) : List AppendResult :=
  (s.results cd cs).filter (fun r => r.err.isNone)

/-- The serialiser is lossless: what `Marshal` produces is a Go byte slice (its length fits a
machine word) from which `Unmarshal` gives the record back. -/
def Codec.Lossless (cd : Codec) : Prop :=
  ∀ r p, cd.Marshal r = .ok p → p.length < u64 ∧ cd.Unmarshal p = .ok r

/-- A small lossless serialiser: the offset in eight big-endian bytes, then the payload. -/
def demoCodec : Codec :=
  { Marshal := fun r =>
      if r.Offset < u64 ∧ r.Value.length < u32 then .ok (be64 r.Offset ++ r.Value)
      else .error .encoding,
    Unmarshal := fun p =>
      if lenWidth ≤ p.length then
        .ok { Value := p.drop lenWidth, Offset := beDecode (p.take lenWidth) }
      else .error .encoding }

/-- The configuration of the repository test: store ceiling 1024, index ceiling three entries. -/
def testConfig : Config := { Segment := { MaxStoreBytes := 1024, MaxIndexBytes := EntWidth * 3 } }

/-- The record of the repository test, payload "hello world". -/
def testRecord : Record :=
  { Value := [104, 101, 108, 108, 111, 32, 119, 111, 114, 108, 100], Offset := 0 }

/-- The fresh segment `NewSegment` builds over an empty directory. -/
def freshSegment (baseOffset : Nat) (c : Config) : Segment :=
  { store := { file := [], size := 0 },
    index := { entries := [], size := 0, cap := c.Segment.MaxIndexBytes },
    baseOffset := baseOffset, NextOffset := baseOffset, config := c }

/-- Bookkeeping of a segment that holds `n` records: the offset counter, the index size and the
relative offsets stored in the index all agree with `n`. -/
structure Counted (s : Segment) (n : Nat) : Prop where
  base_lt : s.baseOffset < u64
  index_size : s.index.size = EntWidth * s.index.entries.length
  count : s.index.entries.length = n
  next : s.NextOffset = add64 s.baseOffset n
  offs : ∀ (i : Nat) (e : Nat × Nat), s.index.entries[i]? = some e → e.1 = toU32 i

/-- Every record of `recs` sits in the store where the index says: the `i`-th index entry points
at a store entry holding the serialised `i`-th record. -/
structure Readable (cd : Codec) (s : Segment) (recs : List Record) : Prop where
  store_size : s.store.size = s.store.file.length
  count : s.index.entries.length = recs.length
  entry : ∀ (i : Nat) (r : Record), recs[i]? = some r →
    ∃ (e : Nat × Nat) (p : Bytes), s.index.entries[i]? = some e ∧ cd.Marshal r = .ok p ∧ s.store.Read e.2 none = .ok p

/-- The calls of the repository test: four times `Append(want)`, no operating-system failure. -/
def testCalls : List Call :=
  [⟨testRecord, none⟩, ⟨testRecord, none⟩, ⟨testRecord, none⟩, ⟨testRecord, none⟩]

/-- The segment of the repository test after its three successful appends (base offset 16). -/
def testSegment : Segment := (freshSegment 16 testConfig).after demoCodec (testCalls.take 3)

/-- A call on a segment. -/
inductive Op where
  | append (c : Call)
  | read (off : Nat) (fault : Option Error)
  | isMaxed
  deriving DecidableEq, Repr

/-- The segment one call leaves behind; `Read` and `IsMaxed` assign to no field of it. -/
def Segment.step (cd : Codec) (s : Segment) : Op → Segment
  | .append c => (s.Append cd c.record c.fault).seg
  | .read _ _ => s
  | .isMaxed => s

/-- The segment a sequence of calls leaves behind. -/
def Segment.exec (cd : Codec) (s : Segment) : List Op → Segment
  | [] => s
  | o :: os => Segment.exec cd (s.step cd o) os

/-- The second configuration of the repository test: store ceiling three payloads, index
ceiling 1024. -/
def storeConfig : Config := { Segment := { MaxStoreBytes := 33, MaxIndexBytes := 1024 } }

/-- Closing a segment and constructing it again over the files left behind, with the same base
offset and configuration. -/
def Segment.reopen (s : Segment) (indexFault storeFault : Option Error) (faults : OpenFaults) :
    Except Error Segment :=
  match s.Close indexFault storeFault with
  | .error e => .error e
  | .ok files => NewSegment files s.baseOffset s.config faults

/-- A configuration whose index region holds `2 ^ 32 + 1` entries. -/
def wideConfig : Config :=
  { Segment := { MaxStoreBytes := u64 - 1, MaxIndexBytes := EntWidth * (u32 + 1) } }

/-- A run of `2 ^ 32 + 1` calls `Append(want)` without operating-system failure. -/
def wideCalls : List Call := List.replicate (u32 + 1) ⟨testRecord, none⟩

/-- The `Append` call behind an operation, if it is one. -/
def Op.call? : Op → Option Call
  | .append c => some c
  | .read _ _ => none
  | .isMaxed => none

/-- The call `os.Remove` on a file of the directory: the file is gone afterwards. -/
def removeFile {α : Type} (_f : Option α) (fault : Option Error) : Except Error (Option α) :=
  match fault with
  | some e => .error e
  | none => .ok none

/-- The method `Segment.Remove` (segment.go, lines 109-123): close, then delete the index file,
then the store file. -/
def Segment.Remove (s : Segment) (indexFault storeFault rmIndexFault rmStoreFault : Option Error) :
    Except Error Files :=
  match s.Close indexFault storeFault with
  | .error e => .error e
  | .ok files =>
    match removeFile files.index rmIndexFault with
    | .error e => .error e
    | .ok ix =>
      match removeFile files.store rmStoreFault with
      | .error e => .error e
      | .ok st => .ok { store := st, index := ix }

/-- The zero value of `Config` (`log.Config{}`): both ceilings are 0. -/
def zeroConfig : Config := { Segment := { MaxStoreBytes := 0, MaxIndexBytes := 0 } }

/-- A serialiser that rejects every record. -/
def rejectingCodec : Codec :=
  { Marshal := fun _ => .error Error.encoding, Unmarshal := fun _ => .error Error.encoding }

/-- The files the segment of the repository test leaves behind after its four `Append` calls
(three records indexed, the fourth one written to the store only). -/
def testFiles : Files :=
  { store := some ((freshSegment 16 testConfig).after demoCodec testCalls).store.file,
    index := some ((freshSegment 16 testConfig).after demoCodec testCalls).index.entries }

/-- The segment `NewSegment` builds over `testFiles` under the second test configuration. -/
def testReopened : Segment :=
  { store := { file := testFiles.store.getD [], size := (testFiles.store.getD []).length },
    index := { entries := testFiles.index.getD [],
               size := EntWidth * (testFiles.index.getD []).length,
               cap := storeConfig.Segment.MaxIndexBytes },
    baseOffset := 16, NextOffset := 19, config := storeConfig }

/-- Every record of `recs` lies in the store file where the index says: the position of the
`i`-th index entry is the byte offset at which the length word and the serialised `i`-th record
begin. -/
structure Placed (cd : Codec) (s : Segment) (recs : List Record) : Prop where
  store_size : s.store.size = s.store.file.length
  count : s.index.entries.length = recs.length
  entry : ∀ (i : Nat) (r : Record), recs[i]? = some r →
    ∃ (e : Nat × Nat) (p : Bytes), s.index.entries[i]? = some e ∧ cd.Marshal r = .ok p ∧
      e.2 + (lenWidth + p.length) ≤ s.store.file.length ∧
      (s.store.file.drop e.2).take (lenWidth + p.length) = be64 p.length ++ p

/-- A run of `2 ^ 32` calls `Append(want)` without operating-system failure. -/
def fullCalls : List Call := List.replicate u32 ⟨testRecord, none⟩

/-! ## One `Append` step -/

theorem Append_marshal_error (cd : Codec) (s : Segment) (record : Record) (fault : Option Error)
    (e : Error) (hm : cd.Marshal { record with Offset := s.NextOffset } = .error e) :
    s.Append cd record fault =
      { offset := 0, err := some e, seg := s, record := { record with Offset := s.NextOffset } } := by
  simp [Segment.Append, hm]

theorem Append_store_error (cd : Codec) (s : Segment) (record : Record) (e : Error) (p : Bytes)
    (hm : cd.Marshal { record with Offset := s.NextOffset } = .ok p) :
    s.Append cd record (some e) =
      { offset := 0, err := some e, seg := s, record := { record with Offset := s.NextOffset } } := by
  simp [Segment.Append, hm, Store.Append]

theorem Append_index_full (cd : Codec) (s : Segment) (record : Record) (p : Bytes)
    (hm : cd.Marshal { record with Offset := s.NextOffset } = .ok p)
    (hfull : s.index.cap < s.index.size + EntWidth) :
    s.Append cd record none =
      { offset := 0, err := some .EOF,
        seg := { s with store := { file := s.store.file ++ (be64 p.length ++ p),
                                   size := s.store.size + (lenWidth + p.length) } },
        record := { record with Offset := s.NextOffset } } := by
  simp [Segment.Append, hm, Store.Append, index.Write, hfull]

theorem Append_success (cd : Codec) (s : Segment) (record : Record) (p : Bytes)
    (hm : cd.Marshal { record with Offset := s.NextOffset } = .ok p)
    (hroom : s.index.size + EntWidth ≤ s.index.cap) :
    s.Append cd record none =
      { offset := s.NextOffset, err := none,
        seg := { store := { file := s.store.file ++ (be64 p.length ++ p),
                            size := s.store.size + (lenWidth + p.length) },
                 index := { entries := s.index.entries ++
                              [(toU32 (sub64 s.NextOffset s.baseOffset), s.store.size)],
                            size := s.index.size + EntWidth, cap := s.index.cap },
                 baseOffset := s.baseOffset, NextOffset := add64 s.NextOffset 1,
                 config := s.config },
        record := { record with Offset := s.NextOffset } } := by
  have h : ¬ s.index.cap < s.index.size + EntWidth := by omega
  simp [Segment.Append, hm, Store.Append, index.Write, h]

/-- A call of `Append` ends in exactly one of four ways. -/
theorem Append_cases (cd : Codec) (s : Segment) (record : Record) (fault : Option Error) :
    (∃ e, cd.Marshal { record with Offset := s.NextOffset } = .error e) ∨
    (∃ p e, cd.Marshal { record with Offset := s.NextOffset } = .ok p ∧ fault = some e) ∨
    (∃ p, cd.Marshal { record with Offset := s.NextOffset } = .ok p ∧ fault = none ∧
      s.index.cap < s.index.size + EntWidth) ∨
    (∃ p, cd.Marshal { record with Offset := s.NextOffset } = .ok p ∧ fault = none ∧
      s.index.size + EntWidth ≤ s.index.cap) := by
  cases hm : cd.Marshal { record with Offset := s.NextOffset } with
  | error e => exact Or.inl ⟨e, rfl⟩
  | ok p =>
    cases fault with
    | some e => exact Or.inr (Or.inl ⟨p, e, rfl, rfl⟩)
    | none =>
      by_cases h : s.index.cap < s.index.size + EntWidth
      · exact Or.inr (Or.inr (Or.inl ⟨p, rfl, rfl, h⟩))
      · exact Or.inr (Or.inr (Or.inr ⟨p, rfl, rfl, by omega⟩))

/-- A call of `Append` that returns no error went through all three sub-steps. -/
theorem Append_ok_inv (cd : Codec) (s : Segment) (record : Record) (fault : Option Error)
    (hok : (s.Append cd record fault).err = none) :
    ∃ p, cd.Marshal { record with Offset := s.NextOffset } = .ok p ∧ fault = none ∧
      s.index.size + EntWidth ≤ s.index.cap := by
  rcases Append_cases cd s record fault with ⟨e, hm⟩ | ⟨p, e, hm, hf⟩ | ⟨p, hm, hf, hc⟩ | h
  · rw [Append_marshal_error cd s record fault e hm] at hok; cases hok
  · subst hf; rw [Append_store_error cd s record e p hm] at hok; cases hok
  · subst hf; rw [Append_index_full cd s record p hm hc] at hok; cases hok
  · exact h

/-! ## Machine arithmetic facts -/

theorem add64_zero (a : Nat) (h : a < u64) : add64 a 0 = a := by
  unfold add64 u64 at *; omega

theorem add64_lt (a b : Nat) : add64 a b < u64 := by
  unfold add64 u64; omega

theorem add64_add64 (a b c : Nat) : add64 (add64 a b) c = add64 a (b + c) := by
  unfold add64 u64; omega

theorem add64_of_lt (a b : Nat) (h : a + b < u64) : add64 a b = a + b := by
  unfold add64 u64 at *; omega

theorem sub64_add64 (B i : Nat) (hB : B < u64) : sub64 (add64 B i) B = i % u64 := by
  unfold sub64 add64 u64 at *; omega

theorem toU32_mod_u64 (i : Nat) : toU32 (i % u64) = toU32 i := by
  unfold toU32 u32 u64; omega

theorem sub64_of_le (off B : Nat) (h1 : B ≤ off) (h2 : off < u64) : sub64 off B = off - B := by
  unfold sub64 u64 at *; omega

theorem toInt64_of_lt (x : Nat) (h : x < 2 ^ 63) : toInt64 x = (x : Int) := by
  have h1 : x % u64 = x := by unfold u64; omega
  unfold toInt64
  rw [h1, if_pos h]

theorem beDecode_be64 (n : Nat) (h : n < u64) : beDecode (be64 n) = n := by
  unfold u64 at h
  simp only [beDecode, be64, List.foldl_cons, List.foldl_nil]
  omega

theorem be64_length (n : Nat) : (be64 n).length = lenWidth := rfl

/-! ## Store facts -/

/-- Appending to the store never disturbs an entry that could be read before. -/
theorem Store.Read_stable (s : Store) (x : Bytes) (pos : Nat) (p : Bytes)
    (hsz : s.size = s.file.length) (hr : s.Read pos none = .ok p) :
    Store.Read { file := s.file ++ x, size := s.size + x.length } pos none = .ok p := by
  simp only [Store.Read] at hr ⊢
  by_cases h1 : pos + lenWidth ≤ s.size
  · rw [if_pos h1] at hr
    have hd : List.take lenWidth (List.drop pos (s.file ++ x)) =
        List.take lenWidth (List.drop pos s.file) := by
      rw [List.drop_append_of_le_length (by omega)]
      rw [List.take_append_of_le_length (by rw [List.length_drop]; omega)]
    by_cases h2 : pos + lenWidth + beDecode (List.take lenWidth (List.drop pos s.file)) ≤ s.size
    · simp only [h2, if_true] at hr
      have h1n : pos + lenWidth ≤ s.size + x.length := by omega
      rw [if_pos h1n]
      simp only [hd]
      have h2n : pos + lenWidth + beDecode (List.take lenWidth (List.drop pos s.file)) ≤
          s.size + x.length := by omega
      rw [if_pos h2n]
      rw [List.drop_append_of_le_length (by omega)]
      rw [List.take_append_of_le_length (by rw [List.length_drop]; omega)]
      exact hr
    · simp only [h2, if_false] at hr
      cases hr
  · rw [if_neg h1] at hr
    cases hr

/-- The entry just appended is read back at the position `Append` reported. -/
theorem Store.Read_appended (s : Store) (p : Bytes)
    (hsz : s.size = s.file.length) (hp : p.length < u64) :
    Store.Read { file := s.file ++ (be64 p.length ++ p), size := s.size + (lenWidth + p.length) }
      s.size none = .ok p := by
  simp only [Store.Read]
  have h1 : s.size + lenWidth ≤ s.size + (lenWidth + p.length) := by omega
  rw [if_pos h1]
  have hd : List.take lenWidth (List.drop s.size (s.file ++ (be64 p.length ++ p))) =
      be64 p.length := by
    rw [hsz, List.drop_left]
    rw [List.take_append_of_le_length (by rw [be64_length])]
    rw [List.take_of_length_le (by rw [be64_length])]
  simp only [hd, beDecode_be64 _ hp]
  rw [if_pos (by omega)]
  have hd2 : List.drop (s.size + lenWidth) (s.file ++ (be64 p.length ++ p)) = p := by
    rw [hsz, ← List.append_assoc]
    have : (s.file ++ be64 p.length).length = s.file.length + lenWidth := by
      rw [List.length_append, be64_length]
    rw [← this, List.drop_left]
  rw [hd2, List.take_of_length_le (le_refl _)]

/-! ## Runs -/

theorem successes_nil (cd : Codec) (s : Segment) : s.successes cd [] = [] := rfl

theorem successes_cons_ok (cd : Codec) (s : Segment) (c : Call) (cs : List Call)
    (h : (s.Append cd c.record c.fault).err = none) :
    s.successes cd (c :: cs) =
      s.Append cd c.record c.fault :: (s.Append cd c.record c.fault).seg.successes cd cs := by
  simp [Segment.successes, Segment.results, h]

theorem successes_cons_err (cd : Codec) (s : Segment) (c : Call) (cs : List Call) (e : Error)
    (h : (s.Append cd c.record c.fault).err = some e) :
    s.successes cd (c :: cs) = (s.Append cd c.record c.fault).seg.successes cd cs := by
  simp [Segment.successes, Segment.results, h]

theorem after_append (cd : Codec) (s : Segment) (cs ds : List Call) :
    s.after cd (cs ++ ds) = (s.after cd cs).after cd ds := by
  induction cs generalizing s with
  | nil => rfl
  | cons c cs ih => exact ih _

/-! ## What a failed and a successful `Append` leave behind -/

theorem Append_err_frame (cd : Codec) (s : Segment) (record : Record) (fault : Option Error)
    (e : Error) (herr : (s.Append cd record fault).err = some e) :
    (s.Append cd record fault).offset = 0 ∧
    (s.Append cd record fault).seg.NextOffset = s.NextOffset ∧
    (s.Append cd record fault).seg.index = s.index ∧
    (s.Append cd record fault).seg.baseOffset = s.baseOffset ∧
    (s.Append cd record fault).seg.config = s.config := by
  rcases Append_cases cd s record fault with ⟨e1, hm⟩ | ⟨p, e1, hm, hf⟩ | ⟨p, hm, hf, hc⟩ |
    ⟨p, hm, hf, hc⟩
  · rw [Append_marshal_error cd s record fault e1 hm]; simp
  · subst hf; rw [Append_store_error cd s record e1 p hm]; simp
  · subst hf; rw [Append_index_full cd s record p hm hc]; simp
  · subst hf; rw [Append_success cd s record p hm hc] at herr; cases herr

theorem Counted_step_err (cd : Codec) (s : Segment) (record : Record) (fault : Option Error)
    (e : Error) (n : Nat) (h : Counted s n) (herr : (s.Append cd record fault).err = some e) :
    Counted (s.Append cd record fault).seg n := by
  obtain ⟨_, hN, hI, hB, _⟩ := Append_err_frame cd s record fault e herr
  exact ⟨by rw [hB]; exact h.base_lt, by rw [hI]; exact h.index_size, by rw [hI]; exact h.count,
    by rw [hN, hB]; exact h.next, by rw [hI]; exact h.offs⟩

theorem Counted_step_ok (cd : Codec) (s : Segment) (record : Record) (fault : Option Error)
    (n : Nat) (h : Counted s n) (hok : (s.Append cd record fault).err = none) :
    Counted (s.Append cd record fault).seg (n + 1) := by
  obtain ⟨p, hm, hf, hc⟩ := Append_ok_inv cd s record fault hok
  subst hf
  rw [Append_success cd s record p hm hc]
  refine ⟨h.base_lt, ?_, ?_, ?_, ?_⟩
  · simp only [List.length_append, List.length_singleton]
    rw [h.index_size]; ring
  · simp only [List.length_append, List.length_singleton]
    rw [h.count]
  · simp only
    rw [h.next, add64_add64]
  · intro i e he
    simp only at he
    by_cases hi : i < s.index.entries.length
    · rw [List.getElem?_append_left hi] at he
      exact h.offs i e he
    · have hi2 : s.index.entries.length ≤ i := by omega
      rw [List.getElem?_append_right hi2] at he
      by_cases h0 : i - s.index.entries.length = 0
      · rw [h0] at he
        simp only [List.getElem?_cons_zero, Option.some.injEq] at he
        subst he
        simp only
        rw [h.next, sub64_add64 _ _ h.base_lt, toU32_mod_u64]
        have : i = n := by have := h.count; omega
        rw [this]
      · obtain ⟨j, hj⟩ := Nat.exists_eq_succ_of_ne_zero h0
        rw [hj] at he
        simp at he

theorem Counted_after (cd : Codec) (s : Segment) (cs : List Call) (n : Nat) (h : Counted s n) :
    Counted (s.after cd cs) (n + (s.successes cd cs).length) := by
  induction cs generalizing s n with
  | nil => simpa [Segment.after, successes_nil] using h
  | cons c cs ih =>
    cases herr : (s.Append cd c.record c.fault).err with
    | none =>
      rw [successes_cons_ok cd s c cs herr]
      have := ih _ _ (Counted_step_ok cd s c.record c.fault n h herr)
      simp only [Segment.after, List.length_cons]
      rw [show n + (((s.Append cd c.record c.fault).seg.successes cd cs).length + 1) =
        n + 1 + ((s.Append cd c.record c.fault).seg.successes cd cs).length by omega]
      exact this
    | some e =>
      rw [successes_cons_err cd s c cs e herr]
      exact ih _ _ (Counted_step_err cd s c.record c.fault e n h herr)

theorem Counted_fresh (B : Nat) (c : Config) (hB : B < u64) : Counted (freshSegment B c) 0 := by
  refine ⟨hB, rfl, rfl, ?_, ?_⟩
  · simp [freshSegment, add64_zero B hB]
  · intro i e he
    simp [freshSegment] at he

theorem NewSegment_empty (B : Nat) (c : Config) :
    NewSegment Files.empty B c OpenFaults.none = .ok (freshSegment B c) := rfl

/-! ## What no `Append` touches -/

theorem Append_fixed (cd : Codec) (s : Segment) (record : Record) (fault : Option Error) :
    (s.Append cd record fault).seg.baseOffset = s.baseOffset ∧
    (s.Append cd record fault).seg.config = s.config ∧
    (s.Append cd record fault).seg.index.cap = s.index.cap := by
  rcases Append_cases cd s record fault with ⟨e1, hm⟩ | ⟨p, e1, hm, hf⟩ | ⟨p, hm, hf, hc⟩ |
    ⟨p, hm, hf, hc⟩
  · rw [Append_marshal_error cd s record fault e1 hm]; simp
  · subst hf; rw [Append_store_error cd s record e1 p hm]; simp
  · subst hf; rw [Append_index_full cd s record p hm hc]; simp
  · subst hf; rw [Append_success cd s record p hm hc]; simp

theorem after_fixed (cd : Codec) (cs : List Call) (s : Segment) :
    (s.after cd cs).baseOffset = s.baseOffset ∧ (s.after cd cs).config = s.config ∧
    (s.after cd cs).index.cap = s.index.cap := by
  induction cs generalizing s with
  | nil => exact ⟨rfl, rfl, rfl⟩
  | cons c cs ih =>
    obtain ⟨h1, h2, h3⟩ := ih (s.Append cd c.record c.fault).seg
    obtain ⟨g1, g2, g3⟩ := Append_fixed cd s c.record c.fault
    exact ⟨h1.trans g1, h2.trans g2, h3.trans g3⟩

/-! ## Offsets handed out along a run -/

theorem successes_offsets (cd : Codec) (cs : List Call) :
    ∀ (s : Segment) (i : Nat) (r : AppendResult), s.NextOffset < u64 →
      (s.successes cd cs)[i]? = some r → r.offset = add64 s.NextOffset i := by
  induction cs with
  | nil => intro s i r _ h; simp [successes_nil] at h
  | cons c cs ih =>
    intro s i r hN h
    cases herr : (s.Append cd c.record c.fault).err with
    | none =>
      rw [successes_cons_ok cd s c cs herr] at h
      obtain ⟨p, hm, hf, hc⟩ := Append_ok_inv cd s c.record c.fault herr
      cases i with
      | zero =>
        simp only [List.getElem?_cons_zero, Option.some.injEq] at h
        subst h
        rw [hf, Append_success cd s c.record p hm hc, add64_zero _ hN]
      | succ j =>
        simp only [List.getElem?_cons_succ] at h
        have hnext : (s.Append cd c.record c.fault).seg.NextOffset = add64 s.NextOffset 1 := by
          rw [hf, Append_success cd s c.record p hm hc]
        have := ih _ j r (by rw [hnext]; exact add64_lt _ _) h
        rw [this, hnext, add64_add64, Nat.add_comm 1 j]
    | some e =>
      rw [successes_cons_err cd s c cs e herr] at h
      have hnext := (Append_err_frame cd s c.record c.fault e herr).2.1
      have := ih _ i r (by rw [hnext]; exact hN) h
      rw [this, hnext]

/-! ## Claims -/

/-- C2: a segment constructed by `NewSegment` over an empty directory at base offset `B` has
`NextOffset = B`, and after a run of `Append` calls of which `k` succeeded `NextOffset` is
`B + k` (the `uint64` sum, which is the plain sum whenever that fits 64 bits). -/
theorem nextOffset_fresh_and_after_appends (cd : Codec) (B : Nat) (c : Config) (cs : List Call)
    (hB : B < u64) :
    NewSegment Files.empty B c OpenFaults.none = .ok (freshSegment B c) ∧
    (freshSegment B c).NextOffset = B ∧
    ((freshSegment B c).after cd cs).NextOffset =
      add64 B ((freshSegment B c).successes cd cs).length ∧
    (B + ((freshSegment B c).successes cd cs).length < u64 →
      ((freshSegment B c).after cd cs).NextOffset =
        B + ((freshSegment B c).successes cd cs).length) := by
  have h := (Counted_after cd _ cs 0 (Counted_fresh B c hB)).next
  rw [(after_fixed cd cs _).1, Nat.zero_add] at h
  refine ⟨NewSegment_empty B c, rfl, h, ?_⟩
  intro hk
  rw [← add64_of_lt _ _ hk]
  exact h

theorem nextOffset_fresh_and_after_appends_witness :
    16 < u64 ∧
    NewSegment Files.empty 16 testConfig OpenFaults.none = .ok (freshSegment 16 testConfig) ∧
    ((freshSegment 16 testConfig).successes demoCodec testCalls).length = 3 ∧
    ((freshSegment 16 testConfig).after demoCodec testCalls).NextOffset = 19 :=
  ⟨by decide,
   (nextOffset_fresh_and_after_appends demoCodec 16 testConfig testCalls (by decide)).1,
   by decide,
   (nextOffset_fresh_and_after_appends demoCodec 16 testConfig testCalls (by decide)).2.2.1⟩

/-- C3: a successful `Append` returns the value `NextOffset` had before the call, stamps that
value into the record before serialising it (the bytes written to the store are the serialised
stamped record), and leaves `NextOffset` one greater (in `uint64`); hence the `i`-th successful
`Append` on a fresh segment at base `B` returns `B + i`. -/
theorem append_returns_pre_increment_offset (cd : Codec) (s : Segment) (record : Record)
    (fault : Option Error) (hok : (s.Append cd record fault).err = none) :
    (s.Append cd record fault).offset = s.NextOffset ∧
    (s.Append cd record fault).record = { record with Offset := s.NextOffset } ∧
    (∃ p, cd.Marshal { record with Offset := s.NextOffset } = .ok p ∧
      (s.Append cd record fault).seg.store.file = s.store.file ++ (be64 p.length ++ p)) ∧
    (s.Append cd record fault).seg.NextOffset = add64 s.NextOffset 1 ∧
    (s.NextOffset + 1 < u64 → (s.Append cd record fault).seg.NextOffset = s.NextOffset + 1) ∧
    (∀ (B : Nat) (c : Config) (cs : List Call) (i : Nat) (r : AppendResult), B < u64 →
      ((freshSegment B c).successes cd cs)[i]? = some r →
        r.offset = add64 B i ∧ (B + i < u64 → r.offset = B + i)) := by
  obtain ⟨p, hm, hf, hc⟩ := Append_ok_inv cd s record fault hok
  subst hf
  rw [Append_success cd s record p hm hc]
  refine ⟨rfl, rfl, ⟨p, hm, rfl⟩, rfl, fun h => add64_of_lt _ _ h, ?_⟩
  intro B c cs i r hB hr
  have h := successes_offsets cd cs (freshSegment B c) i r hB hr
  exact ⟨h, fun hi => by rw [h]; exact add64_of_lt _ _ hi⟩

theorem append_returns_pre_increment_offset_witness :
    ((freshSegment 16 testConfig).Append demoCodec testRecord none).err = none ∧
    ((freshSegment 16 testConfig).Append demoCodec testRecord none).offset = 16 ∧
    ((freshSegment 16 testConfig).Append demoCodec testRecord none).record.Offset = 16 ∧
    ((freshSegment 16 testConfig).Append demoCodec testRecord none).seg.NextOffset = 17 :=
  ⟨by decide,
   (append_returns_pre_increment_offset demoCodec (freshSegment 16 testConfig) testRecord none
      (by decide)).1,
   congrArg Record.Offset
     (append_returns_pre_increment_offset demoCodec (freshSegment 16 testConfig) testRecord none
       (by decide)).2.1,
   (append_returns_pre_increment_offset demoCodec (freshSegment 16 testConfig) testRecord none
      (by decide)).2.2.2.1⟩

/-- C5: when `Append` returns an error, whichever sub-step it comes from, `NextOffset` is what it
was before the call and the offset returned is 0. -/
theorem append_error_keeps_nextOffset (cd : Codec) (s : Segment) (record : Record)
    (fault : Option Error) (e : Error) (herr : (s.Append cd record fault).err = some e) :
    (s.Append cd record fault).seg.NextOffset = s.NextOffset ∧
    (s.Append cd record fault).offset = 0 :=
  ⟨(Append_err_frame cd s record fault e herr).2.1, (Append_err_frame cd s record fault e herr).1⟩

theorem append_error_keeps_nextOffset_witness :
    (testSegment.Append demoCodec testRecord none).err = some Error.EOF ∧
    (testSegment.Append demoCodec testRecord none).seg.NextOffset = testSegment.NextOffset ∧
    (testSegment.Append demoCodec testRecord none).offset = 0 :=
  ⟨by decide, append_error_keeps_nextOffset demoCodec testSegment testRecord none Error.EOF
    (by decide)⟩

/-- C7: `IsMaxed` is true exactly when the store size has reached `MaxStoreBytes` or the index
size has reached `MaxIndexBytes`, and the call leaves the segment as it was. -/
theorem isMaxed_iff_ceiling_reached (cd : Codec) (s : Segment) :
    (s.IsMaxed = true ↔
      (s.store.size ≥ s.config.Segment.MaxStoreBytes ∨
        s.index.size ≥ s.config.Segment.MaxIndexBytes)) ∧
    s.step cd Op.isMaxed = s := by
  refine ⟨?_, rfl⟩
  simp [Segment.IsMaxed]

/-- C10, as stated, fails: the segment of the repository test is maxed after its third append,
the record is serialisable and no operating-system failure occurs, yet the fourth `Append`
is refused with `io.EOF`. -/
theorem append_refused_when_index_full :
    testSegment.IsMaxed = true ∧
    demoCodec.Marshal { testRecord with Offset := testSegment.NextOffset } =
      .ok (be64 19 ++ testRecord.Value) ∧
    (testSegment.Append demoCodec testRecord none).err = some Error.EOF := by
  decide

/-- C10, amended: a segment that is maxed while its index region still has room for one more
entry (it is maxed through the store ceiling) does not refuse: every serialisable record is
appended when the operating system reports no failure. -/
theorem append_not_refused_when_maxed_by_store (cd : Codec) (s : Segment) (record : Record)
    (p : Bytes) (hmax : s.IsMaxed = true)
    (hm : cd.Marshal { record with Offset := s.NextOffset } = .ok p)
    (hroom : s.index.size + EntWidth ≤ s.index.cap) :
    (s.Append cd record none).err = none ∧
    (s.Append cd record none).offset = s.NextOffset ∧
    (s.Append cd record none).seg.IsMaxed = true := by
  rw [Append_success cd s record p hm hroom]
  refine ⟨rfl, rfl, ?_⟩
  simp only [Segment.IsMaxed, Bool.or_eq_true, decide_eq_true_eq] at hmax ⊢
  rcases hmax with h | h
  · left; omega
  · right; omega

theorem append_not_refused_when_maxed_by_store_witness :
    ((freshSegment 16 storeConfig).after demoCodec (testCalls.take 2)).IsMaxed = true ∧
    (((freshSegment 16 storeConfig).after demoCodec (testCalls.take 2)).Append demoCodec
      testRecord none).err = none ∧
    (((freshSegment 16 storeConfig).after demoCodec (testCalls.take 2)).Append demoCodec
      testRecord none).offset = 18 :=
  ⟨by decide,
   (append_not_refused_when_maxed_by_store demoCodec
      ((freshSegment 16 storeConfig).after demoCodec (testCalls.take 2)) testRecord
      (be64 18 ++ testRecord.Value) (by decide) (by decide) (by decide)).1,
   (append_not_refused_when_maxed_by_store demoCodec
      ((freshSegment 16 storeConfig).after demoCodec (testCalls.take 2)) testRecord
      (be64 18 ++ testRecord.Value) (by decide) (by decide) (by decide)).2.1⟩

/-- C4, evaluated on the code: on the segment of the repository test (base offset 16, records
at 16, 17, 18) `Read(15)` computes the ordinal `int64(15 - 16) = -1`, which the index takes as
"the last entry", and returns the record stored at offset 18 without error. -/
theorem read_below_base_returns_last_record :
    testSegment.baseOffset = 16 ∧ testSegment.NextOffset = 19 ∧
    toInt64 (sub64 15 testSegment.baseOffset) = -1 ∧
    testSegment.Read demoCodec 15 none = .ok { Value := testRecord.Value, Offset := 18 } := by
  decide

/-! ## Runs in which every call succeeds -/

theorem EntWidth_eq : EntWidth = 12 := rfl

theorem results_length (cd : Codec) (cs : List Call) (s : Segment) :
    (s.results cd cs).length = cs.length := by
  induction cs generalizing s with
  | nil => rfl
  | cons c cs ih => simp [Segment.results, ih]

theorem results_append (cd : Codec) (cs ds : List Call) (s : Segment) :
    s.results cd (cs ++ ds) = s.results cd cs ++ (s.after cd cs).results cd ds := by
  induction cs generalizing s with
  | nil => rfl
  | cons c cs ih => simp [Segment.results, Segment.after, ih]

/-- A run without operating-system failure, of serialisable records, for which the index region
has room, consists of successes only. -/
theorem results_all_ok (cd : Codec) (ds : List Call) :
    ∀ (s : Segment), s.NextOffset < u64 →
      (∀ c ∈ ds, c.fault = none) →
      (∀ (j : Nat) (c : Call), ds[j]? = some c →
        ∃ p, cd.Marshal { c.record with Offset := add64 s.NextOffset j } = .ok p) →
      s.index.size + EntWidth * ds.length ≤ s.index.cap →
      ∀ r ∈ s.results cd ds, r.err = none := by
  induction ds with
  | nil => intro s _ _ _ _ r hr; simp [Segment.results] at hr
  | cons d ds ih =>
    intro s hN hf hser hroom r hr
    obtain ⟨p, hm⟩ := hser 0 d (by simp)
    rw [add64_zero _ hN] at hm
    have hfd : d.fault = none := hf d (List.mem_cons_self _ _)
    have hroom1 : s.index.size + EntWidth ≤ s.index.cap := by
      rw [List.length_cons] at hroom
      rw [EntWidth_eq] at hroom ⊢
      omega
    have hstep := Append_success cd s d.record p hm hroom1
    simp only [Segment.results, List.mem_cons] at hr
    rcases hr with hr | hr
    · rw [hr, hfd, hstep]
    · rw [hfd, hstep] at hr
      refine ih _ (add64_lt _ _) (fun c hc => hf c (List.mem_cons_of_mem _ hc)) ?_ ?_ r hr
      · intro j c hj
        obtain ⟨q, hq⟩ := hser (j + 1) c (by simpa using hj)
        refine ⟨q, ?_⟩
        simp only
        rw [add64_add64, Nat.add_comm 1 j]
        exact hq
      · simp only
        rw [List.length_cons] at hroom
        rw [EntWidth_eq] at hroom ⊢
        omega

theorem successes_of_all_ok (cd : Codec) (s : Segment) (ds : List Call)
    (h : ∀ r ∈ s.results cd ds, r.err = none) :
    (s.successes cd ds).length = ds.length := by
  have : s.successes cd ds = s.results cd ds := by
    unfold Segment.successes
    rw [List.filter_eq_self]
    intro r hr
    simp [h r hr]
  rw [this, results_length]

/-- On a fresh segment whose index region holds `n` entries, the first `k ≤ n` calls of a run
without failures all succeed and leave `k` records behind. -/
theorem fresh_run_within_capacity (cd : Codec) (n B : Nat) (c : Config) (cs : List Call)
    (hB : B < u64) (hcap : n * EntWidth ≤ c.Segment.MaxIndexBytes) (hlen : n ≤ cs.length)
    (hfault : ∀ d ∈ cs, d.fault = none)
    (hser : ∀ (j : Nat) (d : Call), cs[j]? = some d →
      ∃ p, cd.Marshal { d.record with Offset := add64 B j } = .ok p)
    (k : Nat) (hk : k ≤ n) :
    (∀ r ∈ (freshSegment B c).results cd (cs.take k), r.err = none) ∧
    Counted ((freshSegment B c).after cd (cs.take k)) k := by
  have hlk : (cs.take k).length = k := by rw [List.length_take]; omega
  have hall : ∀ r ∈ (freshSegment B c).results cd (cs.take k), r.err = none := by
    refine results_all_ok cd (cs.take k) (freshSegment B c) hB
      (fun d hd => hfault d (List.mem_of_mem_take hd)) ?_ ?_
    · intro j d hj
      rw [List.getElem?_take] at hj
      by_cases hjk : j < k
      · rw [if_pos hjk] at hj
        exact hser j d hj
      · rw [if_neg hjk] at hj
        cases hj
    · rw [hlk]
      have h0 : (freshSegment B c).index.size = 0 := rfl
      have h1 : (freshSegment B c).index.cap = c.Segment.MaxIndexBytes := rfl
      rw [h0, h1]
      rw [EntWidth_eq] at hcap ⊢
      omega
  refine ⟨hall, ?_⟩
  have h := Counted_after cd (freshSegment B c) (cs.take k) 0 (Counted_fresh B c hB)
  rw [successes_of_all_ok cd _ _ hall, hlk, Nat.zero_add] at h
  exact h

/-- C6: on a fresh segment with `MaxIndexBytes = n * 12` (`n ≥ 1`) and a store ceiling that is
not reached, the first `n` calls of `Append` succeed, `IsMaxed` is false before the `n`-th and
true right after it, and the `(n+1)`-th `Append` fails with `io.EOF`. -/
theorem index_capacity_bounds_segment (cd : Codec) (n B : Nat) (c : Config) (cs : List Call)
    (hn : 1 ≤ n) (hB : B < u64) (hcap : c.Segment.MaxIndexBytes = n * EntWidth)
    (hlen : cs.length = n + 1) (hfault : ∀ d ∈ cs, d.fault = none)
    (hser : ∀ (j : Nat) (d : Call), cs[j]? = some d →
      ∃ p, cd.Marshal { d.record with Offset := add64 B j } = .ok p)
    (hstore : ((freshSegment B c).after cd (cs.take (n - 1))).store.size <
      c.Segment.MaxStoreBytes) :
    (∀ (i : Nat) (r : AppendResult), i < n →
      ((freshSegment B c).results cd cs)[i]? = some r → r.err = none) ∧
    ((freshSegment B c).after cd (cs.take (n - 1))).IsMaxed = false ∧
    ((freshSegment B c).after cd (cs.take n)).IsMaxed = true ∧
    (∃ r, ((freshSegment B c).results cd cs)[n]? = some r ∧ r.err = some Error.EOF) := by
  have hpre := fresh_run_within_capacity cd n B c cs hB (by omega) (by omega) hfault hser
  obtain ⟨hokn, hcn⟩ := hpre n (le_refl n)
  obtain ⟨_, hcm⟩ := hpre (n - 1) (by omega)
  have hsplit : (freshSegment B c).results cd cs =
      (freshSegment B c).results cd (cs.take n) ++
        ((freshSegment B c).after cd (cs.take n)).results cd (cs.drop n) := by
    rw [← results_append, List.take_append_drop]
  have hln : ((freshSegment B c).results cd (cs.take n)).length = n := by
    rw [results_length, List.length_take]; omega
  have hfix := after_fixed cd (cs.take n) (freshSegment B c)
  have hfixm := after_fixed cd (cs.take (n - 1)) (freshSegment B c)
  refine ⟨?_, ?_, ?_, ?_⟩
  · intro i r hi hr
    rw [hsplit, List.getElem?_append_left (by omega)] at hr
    exact hokn r (List.getElem?_mem hr)
  · have hsz := hcm.index_size
    rw [hcm.count] at hsz
    have hcfg : ((freshSegment B c).after cd (cs.take (n - 1))).config = c := hfixm.2.1
    simp only [Segment.IsMaxed, hcfg, hsz, hcap, EntWidth_eq, Bool.or_eq_false_iff,
      decide_eq_false_iff_not]
    constructor <;> omega
  · have hsz := hcn.index_size
    rw [hcn.count] at hsz
    have hcfg : ((freshSegment B c).after cd (cs.take n)).config = c := hfix.2.1
    simp only [Segment.IsMaxed, hcfg, hsz, hcap, EntWidth_eq, Bool.or_eq_true,
      decide_eq_true_eq]
    right; omega
  · have hd : ∃ d, cs[n]? = some d := by
      have : n < cs.length := by omega
      exact ⟨cs[n], List.getElem?_eq_getElem this⟩
    obtain ⟨d, hdn⟩ := hd
    have hdrop : cs.drop n = [d] := by
      have h1 : (cs.drop n).length = 1 := by rw [List.length_drop]; omega
      have h2 : (cs.drop n)[0]? = some d := by rw [List.getElem?_drop]; simpa using hdn
      match hcs : cs.drop n, h1, h2 with
      | [x], _, h2 => simp at h2; rw [h2]
    obtain ⟨p, hm⟩ := hser n d hdn
    have hnext : ((freshSegment B c).after cd (cs.take n)).NextOffset = add64 B n := by
      rw [hcn.next, hfix.1]; rfl
    rw [← hnext] at hm
    have hfull : ((freshSegment B c).after cd (cs.take n)).index.cap <
        ((freshSegment B c).after cd (cs.take n)).index.size + EntWidth := by
      have hsz := hcn.index_size
      rw [hcn.count] at hsz
      have hc : ((freshSegment B c).after cd (cs.take n)).index.cap =
          c.Segment.MaxIndexBytes := hfix.2.2
      rw [hc, hsz, hcap, EntWidth_eq]
      omega
    have hres := Append_index_full cd _ d.record p hm hfull
    have hfd : d.fault = none := hfault d (List.getElem?_mem hdn)
    refine ⟨((freshSegment B c).after cd (cs.take n)).Append cd d.record none, ?_, ?_⟩
    · rw [hsplit, List.getElem?_append_right (by omega), hln, Nat.sub_self, hdrop]
      simp [Segment.results, hfd]
    · rw [hres]

theorem testCalls_serialisable (j : Nat) (d : Call) (h : testCalls[j]? = some d) :
    ∃ p, demoCodec.Marshal { d.record with Offset := add64 16 j } = .ok p := by
  have hd : d ∈ testCalls := List.getElem?_mem h
  have hrec : d.record = testRecord := by
    simp only [testCalls, List.mem_cons, List.mem_singleton, List.not_mem_nil, or_false,
      or_self] at hd
    rw [hd]
  refine ⟨be64 (add64 16 j) ++ testRecord.Value, ?_⟩
  have h1 : add64 16 j < u64 := add64_lt _ _
  have h2 : testRecord.Value.length < u32 := by decide
  simp [demoCodec, hrec, h1, h2]

theorem index_capacity_bounds_segment_witness :
    testConfig.Segment.MaxIndexBytes = 3 * EntWidth ∧ testCalls.length = 3 + 1 ∧
    ((freshSegment 16 testConfig).after demoCodec (testCalls.take (3 - 1))).IsMaxed = false ∧
    ((freshSegment 16 testConfig).after demoCodec (testCalls.take 3)).IsMaxed = true :=
  ⟨by decide, by decide,
   (index_capacity_bounds_segment demoCodec 3 16 testConfig testCalls (by decide) (by decide)
      (by decide) (by decide) (by decide) testCalls_serialisable (by decide)).2.1,
   (index_capacity_bounds_segment demoCodec 3 16 testConfig testCalls (by decide) (by decide)
      (by decide) (by decide) (by decide) testCalls_serialisable (by decide)).2.2.1⟩

/-! ## Reading back what was appended -/

theorem Readable_step_ok (cd : Codec) (s : Segment) (record : Record) (fault : Option Error)
    (recs : List Record) (hcd : cd.Lossless) (h : Readable cd s recs)
    (hok : (s.Append cd record fault).err = none) :
    Readable cd (s.Append cd record fault).seg (recs ++ [(s.Append cd record fault).record]) := by
  obtain ⟨p, hm, hf, hc⟩ := Append_ok_inv cd s record fault hok
  subst hf
  rw [Append_success cd s record p hm hc]
  have hx : lenWidth + p.length = (be64 p.length ++ p).length := by
    rw [List.length_append, be64_length]
  refine ⟨?_, ?_, ?_⟩
  · simp only [List.length_append, be64_length]
    have hsz := h.store_size
    omega
  · simp only [List.length_append, List.length_singleton]
    rw [h.count]
  · intro i r hr
    simp only at hr ⊢
    by_cases hi : i < recs.length
    · rw [List.getElem?_append_left hi] at hr
      obtain ⟨e, q, he, hq, hread⟩ := h.entry i r hr
      refine ⟨e, q, ?_, hq, ?_⟩
      · rw [List.getElem?_append_left (by rw [h.count]; exact hi)]
        exact he
      · rw [hx]
        exact Store.Read_stable s.store _ e.2 q h.store_size hread
    · have hi2 : recs.length ≤ i := by omega
      rw [List.getElem?_append_right hi2] at hr
      by_cases h0 : i - recs.length = 0
      · rw [h0] at hr
        simp only [List.getElem?_cons_zero, Option.some.injEq] at hr
        subst hr
        refine ⟨(toU32 (sub64 s.NextOffset s.baseOffset), s.store.size), p, ?_, hm, ?_⟩
        · rw [List.getElem?_append_right (by rw [h.count]; exact hi2)]
          have : i - s.index.entries.length = 0 := by rw [h.count]; exact h0
          rw [this]
          rfl
        · exact Store.Read_appended s.store p h.store_size (hcd _ p hm).1
      · obtain ⟨j, hj⟩ := Nat.exists_eq_succ_of_ne_zero h0
        rw [hj] at hr
        simp at hr

theorem Readable_step_err (cd : Codec) (s : Segment) (record : Record) (fault : Option Error)
    (recs : List Record) (e : Error) (h : Readable cd s recs)
    (herr : (s.Append cd record fault).err = some e) :
    Readable cd (s.Append cd record fault).seg recs := by
  rcases Append_cases cd s record fault with ⟨e1, hm⟩ | ⟨p, e1, hm, hf⟩ | ⟨p, hm, hf, hc⟩ |
    ⟨p, hm, hf, hc⟩
  · rw [Append_marshal_error cd s record fault e1 hm]; exact h
  · subst hf; rw [Append_store_error cd s record e1 p hm]; exact h
  · subst hf
    rw [Append_index_full cd s record p hm hc]
    have hx : lenWidth + p.length = (be64 p.length ++ p).length := by
      rw [List.length_append, be64_length]
    refine ⟨?_, h.count, ?_⟩
    · simp only [List.length_append, be64_length]
      have hsz := h.store_size
      omega
    · intro i r hr
      obtain ⟨en, q, he, hq, hread⟩ := h.entry i r hr
      refine ⟨en, q, he, hq, ?_⟩
      simp only
      rw [hx]
      exact Store.Read_stable s.store _ en.2 q h.store_size hread
  · subst hf; rw [Append_success cd s record p hm hc] at herr; cases herr

theorem Readable_after (cd : Codec) (hcd : cd.Lossless) (cs : List Call) :
    ∀ (s : Segment) (recs : List Record), Readable cd s recs →
      Readable cd (s.after cd cs) (recs ++ (s.successes cd cs).map AppendResult.record) := by
  induction cs with
  | nil => intro s recs h; simpa [Segment.after, successes_nil] using h
  | cons c cs ih =>
    intro s recs h
    cases herr : (s.Append cd c.record c.fault).err with
    | none =>
      rw [successes_cons_ok cd s c cs herr]
      have := ih _ _ (Readable_step_ok cd s c.record c.fault recs hcd h herr)
      simpa [Segment.after] using this
    | some e =>
      rw [successes_cons_err cd s c cs e herr]
      exact ih _ _ (Readable_step_err cd s c.record c.fault recs e h herr)

theorem Readable_fresh (cd : Codec) (B : Nat) (c : Config) : Readable cd (freshSegment B c) [] := by
  refine ⟨rfl, rfl, ?_⟩
  intro i r hr
  simp at hr

/-- The index never outgrows its backing region. -/
theorem index_within_cap_after (cd : Codec) (cs : List Call) :
    ∀ (s : Segment), s.index.size ≤ s.index.cap →
      (s.after cd cs).index.size ≤ (s.after cd cs).index.cap := by
  induction cs with
  | nil => intro s h; exact h
  | cons c cs ih =>
    intro s h
    refine ih _ ?_
    rcases Append_cases cd s c.record c.fault with ⟨e1, hm⟩ | ⟨p, e1, hm, hf⟩ | ⟨p, hm, hf, hc⟩ |
      ⟨p, hm, hf, hc⟩
    · rw [Append_marshal_error cd s c.record c.fault e1 hm]; exact h
    · rw [hf, Append_store_error cd s c.record e1 p hm]; exact h
    · rw [hf, Append_index_full cd s c.record p hm hc]; exact h
    · rw [hf, Append_success cd s c.record p hm hc]; exact hc

/-- Every successful result of a run carries the caller's record, stamped with the offset
returned. -/
theorem successes_record (cd : Codec) (cs : List Call) :
    ∀ (s : Segment) (r : AppendResult), r ∈ s.successes cd cs →
      ∃ d ∈ cs, r.record = { d.record with Offset := r.offset } := by
  induction cs with
  | nil => intro s r hr; simp [successes_nil] at hr
  | cons c cs ih =>
    intro s r hr
    cases herr : (s.Append cd c.record c.fault).err with
    | none =>
      rw [successes_cons_ok cd s c cs herr, List.mem_cons] at hr
      rcases hr with hr | hr
      · obtain ⟨p, hm, hf, hc⟩ := Append_ok_inv cd s c.record c.fault herr
        refine ⟨c, List.mem_cons_self _ _, ?_⟩
        rw [hr, hf, Append_success cd s c.record p hm hc]
      · obtain ⟨d, hd, h⟩ := ih _ r hr
        exact ⟨d, List.mem_cons_of_mem _ hd, h⟩
    | some e =>
      rw [successes_cons_err cd s c cs e herr] at hr
      obtain ⟨d, hd, h⟩ := ih _ r hr
      exact ⟨d, List.mem_cons_of_mem _ hd, h⟩

theorem index_Read_ordinal (ix : index) (k : Nat) (e : Nat × Nat) (he : ix.entries[k]? = some e) :
    ix.Read (k : Int) = .ok e := by
  have h1 : ¬ ((k : Int) = -1) := by omega
  have h2 : (0 : Int) ≤ (k : Int) := by omega
  simp only [index.Read, if_neg h1, if_pos h2, Int.toNat_ofNat, he]

/-- C1: on a segment built by `NewSegment` over an empty directory at base offset `B`, after any
run of `Append` calls, every offset `off` with `B ≤ off < NextOffset` is the offset returned by
a successful call of the run, and `Read(off)` succeeds and returns the record that call
appended: the caller's record with that offset stamped in, so the same `Value`. -/
theorem read_returns_appended_record (cd : Codec) (B : Nat) (c : Config) (cs : List Call)
    (off : Nat) (hcd : cd.Lossless) (hB : B < u64) (hc : c.Segment.MaxIndexBytes < u64)
    (h1 : B ≤ off) (h2 : off < ((freshSegment B c).after cd cs).NextOffset) :
    ∃ (r : AppendResult) (d : Call) (rec : Record),
      ((freshSegment B c).successes cd cs)[off - B]? = some r ∧ r.offset = off ∧
      d ∈ cs ∧ r.record = { d.record with Offset := off } ∧
      ((freshSegment B c).after cd cs).Read cd off none = .ok rec ∧
      rec.Value = d.record.Value := by
  have hcnt := Counted_after cd (freshSegment B c) cs 0 (Counted_fresh B c hB)
  have hrd := Readable_after cd hcd cs (freshSegment B c) [] (Readable_fresh cd B c)
  have hfix := after_fixed cd cs (freshSegment B c)
  have hcapb := index_within_cap_after cd cs (freshSegment B c) (Nat.zero_le _)
  rw [Nat.zero_add] at hcnt
  rw [List.nil_append] at hrd
  have hbase : ((freshSegment B c).after cd cs).baseOffset = B := hfix.1
  have hcap : ((freshSegment B c).after cd cs).index.cap = c.Segment.MaxIndexBytes := hfix.2.2
  have hnext := hcnt.next
  rw [hbase] at hnext
  have hsize := hcnt.index_size
  rw [hcnt.count, EntWidth_eq] at hsize
  rw [hsize, hcap] at hcapb
  -- the number of records is small, so nothing wraps below
  have hk : off - B < ((freshSegment B c).successes cd cs).length := by
    rw [hnext] at h2
    unfold add64 u64 at h2
    unfold u64 at hB hc
    omega
  have hoff : off < u64 := by
    rw [hnext] at h2
    exact lt_trans h2 (add64_lt _ _)
  obtain ⟨r, hr⟩ : ∃ r, ((freshSegment B c).successes cd cs)[off - B]? = some r :=
    ⟨_, List.getElem?_eq_getElem hk⟩
  have hroff : r.offset = off := by
    rw [successes_offsets cd cs (freshSegment B c) (off - B) r hB hr]
    have : (freshSegment B c).NextOffset = B := rfl
    rw [this]
    unfold add64 u64
    unfold u64 at hoff
    omega
  obtain ⟨d, hd, hrec⟩ := successes_record cd cs (freshSegment B c) r (List.getElem?_mem hr)
  rw [hroff] at hrec
  have hmap : (((freshSegment B c).successes cd cs).map AppendResult.record)[off - B]? =
      some r.record := by
    rw [List.getElem?_map, hr]; rfl
  obtain ⟨e, p, he, hm, hread⟩ := hrd.entry (off - B) r.record hmap
  have hidx : toInt64 (sub64 off ((freshSegment B c).after cd cs).baseOffset) =
      ((off - B : Nat) : Int) := by
    rw [hbase, sub64_of_le off B h1 hoff]
    refine toInt64_of_lt _ ?_
    unfold u64 at hc
    omega
  refine ⟨r, d, r.record, hr, hroff, hd, hrec, ?_, ?_⟩
  · unfold Segment.Read
    rw [hidx, index_Read_ordinal _ _ e he]
    simp only [hread]
    exact (hcd _ p hm).2
  · rw [hrec]

theorem demoCodec_lossless : demoCodec.Lossless := by
  intro r p h
  simp only [demoCodec] at h ⊢
  by_cases hc : r.Offset < u64 ∧ r.Value.length < u32
  · rw [if_pos hc] at h
    cases h
    have hlen : (be64 r.Offset ++ r.Value).length = lenWidth + r.Value.length := by
      rw [List.length_append, be64_length]
    refine ⟨?_, ?_⟩
    · rw [hlen]
      have := hc.2
      unfold u32 at this
      unfold u64 lenWidth
      omega
    · have h8 : lenWidth ≤ (be64 r.Offset ++ r.Value).length := by rw [hlen]; omega
      rw [if_pos h8]
      have hd : List.drop lenWidth (be64 r.Offset ++ r.Value) = r.Value := by
        rw [← be64_length r.Offset, List.drop_left]
      have ht : List.take lenWidth (be64 r.Offset ++ r.Value) = be64 r.Offset := by
        rw [← be64_length r.Offset, List.take_left]
      rw [hd, ht, beDecode_be64 _ hc.1]
  · rw [if_neg hc] at h
    cases h

theorem read_returns_appended_record_witness :
    16 ≤ 17 ∧ 17 < ((freshSegment 16 testConfig).after demoCodec testCalls).NextOffset ∧
    ∃ (r : AppendResult) (d : Call) (rec : Record),
      ((freshSegment 16 testConfig).successes demoCodec testCalls)[17 - 16]? = some r ∧
      r.offset = 17 ∧ d ∈ testCalls ∧ r.record = { d.record with Offset := 17 } ∧
      ((freshSegment 16 testConfig).after demoCodec testCalls).Read demoCodec 17 none = .ok rec ∧
      rec.Value = d.record.Value :=
  ⟨by decide, by decide,
   read_returns_appended_record demoCodec 16 testConfig testCalls 17 demoCodec_lossless
     (by decide) (by decide) (by decide) (by decide)⟩

/-! ## Reopening -/

/-- What `NewSegment` recovers from the files it finds, when nothing fails. -/
theorem NewSegment_recovers (dir : Files) (B : Nat) (c : Config) :
    ∃ s, NewSegment dir B c OpenFaults.none = .ok s ∧ s.baseOffset = B ∧ s.config = c ∧
      (dir.index.getD [] = [] → s.NextOffset = B) ∧
      (∀ e, (dir.index.getD []).getLast? = some e → s.NextOffset = add64 (add64 B e.1) 1) := by
  cases h : (dir.index.getD []).getLast? with
  | none =>
    refine ⟨{ store := { file := dir.store.getD [], size := (dir.store.getD []).length },
              index := { entries := dir.index.getD [],
                         size := EntWidth * (dir.index.getD []).length,
                         cap := c.Segment.MaxIndexBytes },
              baseOffset := B, NextOffset := B, config := c }, ?_, rfl, rfl, fun _ => rfl, ?_⟩
    · simp [NewSegment, OpenFile, NewStore, NewIndex, index.Read, OpenFaults.none, h]
    · intro e he; cases he
  | some e =>
    refine ⟨{ store := { file := dir.store.getD [], size := (dir.store.getD []).length },
              index := { entries := dir.index.getD [],
                         size := EntWidth * (dir.index.getD []).length,
                         cap := c.Segment.MaxIndexBytes },
              baseOffset := B, NextOffset := add64 (add64 B e.1) 1, config := c },
            ?_, rfl, rfl, ?_, ?_⟩
    · simp [NewSegment, OpenFile, NewStore, NewIndex, index.Read, OpenFaults.none, h]
    · intro hnil
      rw [hnil] at h
      cases h
    · intro e2 he2
      cases he2
      rfl

/-- The offset counter a reopened segment starts with, in terms of the number `n` of records
the closed segment held: the last index entry carries the relative offset `n - 1` cut to 32
bits. -/
theorem reopen_nextOffset (s : Segment) (n : Nat) (h : Counted s n) :
    ∃ s2, s.reopen none none OpenFaults.none = .ok s2 ∧
      s2.NextOffset = if n = 0 then s.baseOffset
        else add64 (add64 s.baseOffset (toU32 (n - 1))) 1 := by
  obtain ⟨s2, hs2, _, _, hnil, hlast⟩ :=
    NewSegment_recovers { store := some s.store.file, index := some s.index.entries }
      s.baseOffset s.config
  refine ⟨s2, ?_, ?_⟩
  · simp only [Segment.reopen, Segment.Close, index.Close, Store.Close]
    exact hs2
  · simp only [Option.getD_some] at hnil hlast
    by_cases hn : n = 0
    · rw [if_pos hn]
      refine hnil ?_
      have := h.count
      rw [hn] at this
      exact List.length_eq_zero.mp this
    · rw [if_neg hn]
      have hlen : s.index.entries.length - 1 < s.index.entries.length := by
        have := h.count; omega
      have hget : s.index.entries.getLast? =
          some (s.index.entries[s.index.entries.length - 1]) := by
        rw [List.getLast?_eq_getElem?, List.getElem?_eq_getElem hlen]
      rw [hlast _ hget]
      have hoff := h.offs _ _ (List.getElem?_eq_getElem hlen)
      rw [hoff, h.count]

/-- A run that appends the test record `k` times to a fresh segment with room for `k` index
entries consists of `k` successes. -/
theorem replicate_run (k B : Nat) (c : Config) (hB : B < u64)
    (hcap : k * EntWidth ≤ c.Segment.MaxIndexBytes) :
    Counted ((freshSegment B c).after demoCodec (List.replicate k ⟨testRecord, none⟩)) k ∧
    ((freshSegment B c).successes demoCodec (List.replicate k ⟨testRecord, none⟩)).length = k := by
  have hlen : (List.replicate k (⟨testRecord, none⟩ : Call)).length = k := List.length_replicate _ _
  have htake : (List.replicate k (⟨testRecord, none⟩ : Call)).take k =
      List.replicate k ⟨testRecord, none⟩ := by
    rw [List.take_of_length_le (by rw [hlen])]
  have h := fresh_run_within_capacity demoCodec k B c (List.replicate k ⟨testRecord, none⟩) hB
    hcap (by rw [hlen])
    (fun d hd => by rw [List.eq_of_mem_replicate hd])
    (fun j d hj => by
      have hd : d = ⟨testRecord, none⟩ := List.eq_of_mem_replicate (List.getElem?_mem hj)
      refine ⟨be64 (add64 B j) ++ testRecord.Value, ?_⟩
      have h1 : add64 B j < u64 := add64_lt _ _
      have h2 : testRecord.Value.length < u32 := by decide
      simp [demoCodec, hd, h1, h2])
    k (le_refl k)
  rw [htake] at h
  exact ⟨h.2, by rw [successes_of_all_ok demoCodec _ _ h.1, hlen]⟩

/-- C8, as stated, fails for `k = 2 ^ 32 + 1`: the index stores relative offsets in 32 bits, so the
last entry of a closed segment holding `2 ^ 32 + 1` records carries relative offset 0, and the
reopened segment starts at `NextOffset = B + 1` instead of `B + k` (here `B = 0`). -/
theorem reopen_loses_records_beyond_uint32 :
    ((freshSegment 0 wideConfig).successes demoCodec wideCalls).length = u32 + 1 ∧
    ((freshSegment 0 wideConfig).after demoCodec wideCalls).NextOffset = u32 + 1 ∧
    (((freshSegment 0 wideConfig).after demoCodec wideCalls).reopen none none
      OpenFaults.none).map Segment.NextOffset = .ok 1 := by
  have hrun : Counted ((freshSegment 0 wideConfig).after demoCodec wideCalls) (u32 + 1) ∧
      ((freshSegment 0 wideConfig).successes demoCodec wideCalls).length = u32 + 1 :=
    replicate_run (u32 + 1) 0 wideConfig (by decide) (by rw [Nat.mul_comm]; exact le_refl _)
  obtain ⟨hcnt, hlen⟩ := hrun
  have hbase : ((freshSegment 0 wideConfig).after demoCodec wideCalls).baseOffset = 0 :=
    (after_fixed demoCodec wideCalls _).1
  refine ⟨hlen, ?_, ?_⟩
  · have h := hcnt.next
    rw [hbase] at h
    exact h.trans (by decide)
  · obtain ⟨s2, h1, h2⟩ := reopen_nextOffset _ _ hcnt
    rw [hbase] at h2
    have h3 : s2.NextOffset = 1 := h2.trans (by decide)
    show Except.map Segment.NextOffset
      (((freshSegment 0 wideConfig).after demoCodec wideCalls).reopen none none
        OpenFaults.none) = .ok 1
    rw [h1]
    show Except.ok s2.NextOffset = Except.ok 1
    rw [h3]

/-- C8, amended: after a run of `Append` calls on a fresh segment of which `k ≤ 2 ^ 32`
succeeded, closing the segment and constructing it again over the same files, base offset and
configuration yields `NextOffset = B + k` (the value the closed segment had); and `NewSegment`
always sets `NextOffset = B` when the index file is empty and
`B + lastIndexEntry.offset + 1` otherwise. -/
theorem reopen_recovers_nextOffset (cd : Codec) (B : Nat) (c : Config) (cs : List Call)
    (hB : B < u64) (hk : ((freshSegment B c).successes cd cs).length ≤ u32) :
    (∃ s2, ((freshSegment B c).after cd cs).reopen none none OpenFaults.none = .ok s2 ∧
      s2.NextOffset = add64 B ((freshSegment B c).successes cd cs).length ∧
      s2.NextOffset = ((freshSegment B c).after cd cs).NextOffset ∧
      (B + ((freshSegment B c).successes cd cs).length < u64 →
        s2.NextOffset = B + ((freshSegment B c).successes cd cs).length)) ∧
    (∀ dir : Files, ∃ s, NewSegment dir B c OpenFaults.none = .ok s ∧
      (dir.index.getD [] = [] → s.NextOffset = B) ∧
      (∀ e, (dir.index.getD []).getLast? = some e → s.NextOffset = add64 (add64 B e.1) 1)) := by
  have hcnt := Counted_after cd (freshSegment B c) cs 0 (Counted_fresh B c hB)
  rw [Nat.zero_add] at hcnt
  have hbase : ((freshSegment B c).after cd cs).baseOffset = B := (after_fixed cd cs _).1
  have hnext := hcnt.next
  rw [hbase] at hnext
  obtain ⟨s2, h1, h2⟩ := reopen_nextOffset _ _ hcnt
  rw [hbase] at h2
  have h3 : s2.NextOffset = add64 B ((freshSegment B c).successes cd cs).length := by
    rw [h2]
    by_cases h0 : ((freshSegment B c).successes cd cs).length = 0
    · rw [if_pos h0, h0, add64_zero B hB]
    · rw [if_neg h0, add64_add64]
      have : toU32 (((freshSegment B c).successes cd cs).length - 1) + 1 =
          ((freshSegment B c).successes cd cs).length := by
        unfold toU32
        rw [Nat.mod_eq_of_lt (by omega)]
        omega
      rw [this]
  refine ⟨⟨s2, h1, h3, h3.trans hnext.symm, fun hlt => ?_⟩, ?_⟩
  · rw [h3, add64_of_lt _ _ hlt]
  · intro dir
    obtain ⟨s, hs, _, _, hnil, hlast⟩ := NewSegment_recovers dir B c
    exact ⟨s, hs, hnil, hlast⟩

theorem reopen_recovers_nextOffset_witness :
    16 < u64 ∧ ((freshSegment 16 testConfig).successes demoCodec testCalls).length ≤ u32 ∧
    ∃ s2, ((freshSegment 16 testConfig).after demoCodec testCalls).reopen none none
        OpenFaults.none = .ok s2 ∧
      s2.NextOffset = add64 16 ((freshSegment 16 testConfig).successes demoCodec testCalls).length ∧
      s2.NextOffset = ((freshSegment 16 testConfig).after demoCodec testCalls).NextOffset ∧
      (16 + ((freshSegment 16 testConfig).successes demoCodec testCalls).length < u64 →
        s2.NextOffset = 16 + ((freshSegment 16 testConfig).successes demoCodec testCalls).length) :=
  ⟨by decide, by decide,
   (reopen_recovers_nextOffset demoCodec 16 testConfig testCalls (by decide) (by decide)).1⟩

/-! ## Reachable states -/

/-- Only the `Append` calls of a sequence of calls shape the segment it leaves behind. -/
theorem exec_eq_after (cd : Codec) (ops : List Op) :
    ∀ s : Segment, s.exec cd ops = s.after cd (ops.filterMap Op.call?) := by
  induction ops with
  | nil => intro s; rfl
  | cons o os ih =>
    intro s
    cases o with
    | append c => simp only [Segment.exec, Segment.step, List.filterMap_cons, Op.call?,
        Segment.after]; exact ih _
    | read off f => simp only [Segment.exec, Segment.step, List.filterMap_cons, Op.call?]
                    exact ih _
    | isMaxed => simp only [Segment.exec, Segment.step, List.filterMap_cons, Op.call?]
                 exact ih _

/-- C9, as stated, fails: on a fresh segment at base offset `2 ^ 64 - 1` one successful `Append`
wraps the offset counter to 0, below the base offset. -/
theorem nextOffset_wraps_below_baseOffset :
    NewSegment Files.empty (u64 - 1) testConfig OpenFaults.none =
      .ok (freshSegment (u64 - 1) testConfig) ∧
    ((freshSegment (u64 - 1) testConfig).Append demoCodec testRecord none).err = none ∧
    ((freshSegment (u64 - 1) testConfig).exec demoCodec [Op.append ⟨testRecord, none⟩]).NextOffset
      = 0 ∧
    ¬ (((freshSegment (u64 - 1) testConfig).exec demoCodec
          [Op.append ⟨testRecord, none⟩]).NextOffset ≥
        ((freshSegment (u64 - 1) testConfig).exec demoCodec
          [Op.append ⟨testRecord, none⟩]).baseOffset) := by
  decide

/-- C9, amended: in every state reachable from a segment built by `NewSegment` over an empty
directory by `Append`, `Read` and `IsMaxed` calls, `NextOffset - baseOffset` computed in
`uint64` equals the number of index entries written (`index.size / 12`), and
`NextOffset ≥ baseOffset` holds whenever `baseOffset` plus that number fits 64 bits. -/
theorem segment_counter_invariant (cd : Codec) (B : Nat) (c : Config) (ops : List Op)
    (hB : B < u64) (hc : c.Segment.MaxIndexBytes < u64) :
    ((freshSegment B c).exec cd ops).index.size / EntWidth =
      ((freshSegment B c).exec cd ops).index.entries.length ∧
    sub64 ((freshSegment B c).exec cd ops).NextOffset ((freshSegment B c).exec cd ops).baseOffset =
      ((freshSegment B c).exec cd ops).index.size / EntWidth ∧
    (((freshSegment B c).exec cd ops).baseOffset +
        ((freshSegment B c).exec cd ops).index.size / EntWidth < u64 →
      ((freshSegment B c).exec cd ops).NextOffset ≥ ((freshSegment B c).exec cd ops).baseOffset ∧
      ((freshSegment B c).exec cd ops).NextOffset - ((freshSegment B c).exec cd ops).baseOffset =
        ((freshSegment B c).exec cd ops).index.size / EntWidth) := by
  rw [exec_eq_after]
  generalize ops.filterMap Op.call? = cs
  have hcnt := Counted_after cd (freshSegment B c) cs 0 (Counted_fresh B c hB)
  have hfix := after_fixed cd cs (freshSegment B c)
  have hcapb := index_within_cap_after cd cs (freshSegment B c) (Nat.zero_le _)
  have hcap : ((freshSegment B c).after cd cs).index.cap = c.Segment.MaxIndexBytes := hfix.2.2
  have hbase : ((freshSegment B c).after cd cs).baseOffset = B := hfix.1
  have hsize := hcnt.index_size
  have hnext := hcnt.next
  rw [← hcnt.count] at hnext
  rw [hcap] at hcapb
  rw [hbase] at hnext ⊢
  generalize ((freshSegment B c).after cd cs).index.entries.length = n at hsize hnext ⊢
  generalize ((freshSegment B c).after cd cs).index.size = sz at hsize hcapb ⊢
  generalize ((freshSegment B c).after cd cs).NextOffset = N at hnext ⊢
  subst hsize hnext
  rw [EntWidth_eq] at hcapb ⊢
  have hdiv : 12 * n / 12 = n := by omega
  rw [hdiv]
  have hn : n < u64 := by unfold u64 at hc ⊢; omega
  refine ⟨rfl, ?_, ?_⟩
  · rw [sub64_add64 B n hB, Nat.mod_eq_of_lt hn]
  · intro hlt
    rw [add64_of_lt _ _ hlt]
    omega

theorem segment_counter_invariant_witness :
    16 < u64 ∧ testConfig.Segment.MaxIndexBytes < u64 ∧
    ((freshSegment 16 testConfig).exec demoCodec
        [Op.append ⟨testRecord, none⟩, Op.isMaxed, Op.read 16 none,
         Op.append ⟨testRecord, none⟩]).index.size / EntWidth = 2 ∧
    sub64 ((freshSegment 16 testConfig).exec demoCodec
        [Op.append ⟨testRecord, none⟩, Op.isMaxed, Op.read 16 none,
         Op.append ⟨testRecord, none⟩]).NextOffset 16 = 2 :=
  ⟨by decide, by decide,
   (segment_counter_invariant demoCodec 16 testConfig
      [Op.append ⟨testRecord, none⟩, Op.isMaxed, Op.read 16 none,
       Op.append ⟨testRecord, none⟩] (by decide) (by decide)).1,
   (segment_counter_invariant demoCodec 16 testConfig
      [Op.append ⟨testRecord, none⟩, Op.isMaxed, Op.read 16 none,
       Op.append ⟨testRecord, none⟩] (by decide) (by decide)).2.1⟩

/-! ## Failure paths of `Append` -/

/-- C13: when the store append succeeds and the index write then fails, `Append` returns that
error; the store has grown by exactly one entry of `8 + len(p)` bytes, the length word followed
by the serialised record `p`, which sits at the old end of the store; the index entries, the
index size and `NextOffset` are unchanged. -/
theorem append_partial_write (cd : Codec) (s : Segment) (record : Record) (fault : Option Error)
    (p : Bytes) (w pos : Nat) (st : Store) (e : Error)
    (hm : cd.Marshal { record with Offset := s.NextOffset } = .ok p)
    (hst : s.store.Append p fault = .ok (w, pos, st))
    (hix : s.index.Write (toU32 (sub64 s.NextOffset s.baseOffset)) pos = .error e) :
    (s.Append cd record fault).err = some e ∧
    (s.Append cd record fault).seg.store.size = s.store.size + (8 + p.length) ∧
    (s.Append cd record fault).seg.store.file = s.store.file ++ (be64 p.length ++ p) ∧
    ((s.Append cd record fault).seg.store.file.drop s.store.file.length).take (8 + p.length) =
      be64 p.length ++ p ∧
    (s.Append cd record fault).seg.index.entries = s.index.entries ∧
    (s.Append cd record fault).seg.index.size = s.index.size ∧
    (s.Append cd record fault).seg.index = s.index ∧
    (s.Append cd record fault).seg.NextOffset = s.NextOffset := by
  cases fault with
  | some e1 => simp [Store.Append] at hst
  | none =>
    have hfull : s.index.cap < s.index.size + EntWidth := by
      by_contra hno
      simp [index.Write, hno] at hix
    have he : e = Error.EOF := by
      simp [index.Write, hfull] at hix
      exact hix.symm
    rw [Append_index_full cd s record p hm hfull, he]
    refine ⟨rfl, ?_, rfl, ?_, rfl, rfl, rfl, rfl⟩
    · simp only [lenWidth]
    · simp only
      rw [List.drop_left]
      refine List.take_of_length_le ?_
      rw [List.length_append, be64_length, lenWidth]

theorem append_partial_write_witness :
    (testSegment.Append demoCodec testRecord none).err = some Error.EOF ∧
    (testSegment.Append demoCodec testRecord none).seg.store.size = testSegment.store.size + 27 ∧
    (testSegment.Append demoCodec testRecord none).seg.index = testSegment.index ∧
    (testSegment.Append demoCodec testRecord none).seg.NextOffset = 19 :=
  ⟨(append_partial_write demoCodec testSegment testRecord none (be64 19 ++ testRecord.Value)
      27 81 { file := testSegment.store.file ++ (be64 19 ++ (be64 19 ++ testRecord.Value)),
              size := 108 } Error.EOF (by decide) (by decide) (by decide)).1,
   (append_partial_write demoCodec testSegment testRecord none (be64 19 ++ testRecord.Value)
      27 81 { file := testSegment.store.file ++ (be64 19 ++ (be64 19 ++ testRecord.Value)),
              size := 108 } Error.EOF (by decide) (by decide) (by decide)).2.1,
   (append_partial_write demoCodec testSegment testRecord none (be64 19 ++ testRecord.Value)
      27 81 { file := testSegment.store.file ++ (be64 19 ++ (be64 19 ++ testRecord.Value)),
              size := 108 } Error.EOF (by decide) (by decide) (by decide)).2.2.2.2.2.2.1,
   (append_partial_write demoCodec testSegment testRecord none (be64 19 ++ testRecord.Value)
      27 81 { file := testSegment.store.file ++ (be64 19 ++ (be64 19 ++ testRecord.Value)),
              size := 108 } Error.EOF (by decide) (by decide) (by decide)).2.2.2.2.2.2.2⟩

/-- C14: when serialisation of the record fails, `Append` returns that error before any file is
touched: the store (contents and size), the index (entries and size) and `NextOffset` are what
they were, and the offset returned is 0. -/
theorem append_marshal_failure_frame (cd : Codec) (s : Segment) (record : Record)
    (fault : Option Error) (e : Error)
    (hm : cd.Marshal { record with Offset := s.NextOffset } = .error e) :
    (s.Append cd record fault).err = some e ∧
    (s.Append cd record fault).offset = 0 ∧
    (s.Append cd record fault).seg.store.file = s.store.file ∧
    (s.Append cd record fault).seg.store.size = s.store.size ∧
    (s.Append cd record fault).seg.index.entries = s.index.entries ∧
    (s.Append cd record fault).seg.index.size = s.index.size ∧
    (s.Append cd record fault).seg.NextOffset = s.NextOffset ∧
    (s.Append cd record fault).seg = s := by
  rw [Append_marshal_error cd s record fault e hm]
  exact ⟨rfl, rfl, rfl, rfl, rfl, rfl, rfl, rfl⟩

theorem append_marshal_failure_frame_witness :
    (testSegment.Append rejectingCodec testRecord none).err = some Error.encoding ∧
    (testSegment.Append rejectingCodec testRecord none).offset = 0 ∧
    (testSegment.Append rejectingCodec testRecord none).seg = testSegment :=
  ⟨(append_marshal_failure_frame rejectingCodec testSegment testRecord none Error.encoding
      rfl).1,
   (append_marshal_failure_frame rejectingCodec testSegment testRecord none Error.encoding
      rfl).2.1,
   (append_marshal_failure_frame rejectingCodec testSegment testRecord none Error.encoding
      rfl).2.2.2.2.2.2.2⟩

/-- Neither file size shrinks under `Append`, whatever its outcome. -/
theorem Append_sizes_grow (cd : Codec) (s : Segment) (record : Record) (fault : Option Error) :
    s.store.size ≤ (s.Append cd record fault).seg.store.size ∧
    s.index.size ≤ (s.Append cd record fault).seg.index.size := by
  rcases Append_cases cd s record fault with ⟨e1, hm⟩ | ⟨p, e1, hm, hf⟩ | ⟨p, hm, hf, hc⟩ |
    ⟨p, hm, hf, hc⟩
  · rw [Append_marshal_error cd s record fault e1 hm]; exact ⟨le_refl _, le_refl _⟩
  · subst hf; rw [Append_store_error cd s record e1 p hm]; exact ⟨le_refl _, le_refl _⟩
  · subst hf; rw [Append_index_full cd s record p hm hc]
    exact ⟨Nat.le_add_right _ _, le_refl _⟩
  · subst hf; rw [Append_success cd s record p hm hc]
    exact ⟨Nat.le_add_right _ _, Nat.le_add_right _ _⟩

/-- C19: once `IsMaxed` is true it stays true across `Append`, successful or failed: neither the
store size nor the index size decreases and the configuration is fixed. -/
theorem isMaxed_monotone_under_append (cd : Codec) (s : Segment) (record : Record)
    (fault : Option Error) (hmax : s.IsMaxed = true) :
    (s.Append cd record fault).seg.IsMaxed = true ∧
    s.store.size ≤ (s.Append cd record fault).seg.store.size ∧
    s.index.size ≤ (s.Append cd record fault).seg.index.size ∧
    (s.Append cd record fault).seg.config = s.config := by
  obtain ⟨h1, h2⟩ := Append_sizes_grow cd s record fault
  have hcfg := (Append_fixed cd s record fault).2.1
  refine ⟨?_, h1, h2, hcfg⟩
  simp only [Segment.IsMaxed, Bool.or_eq_true, decide_eq_true_eq, hcfg] at hmax ⊢
  rcases hmax with h | h
  · left; omega
  · right; omega

theorem isMaxed_monotone_under_append_witness :
    testSegment.IsMaxed = true ∧
    (testSegment.Append demoCodec testRecord none).err = some Error.EOF ∧
    (testSegment.Append demoCodec testRecord none).seg.IsMaxed = true :=
  ⟨by decide, by decide,
   (isMaxed_monotone_under_append demoCodec testSegment testRecord none (by decide)).1⟩

/-- C20: whatever the outcome of `Append`, the caller's record carries the value `NextOffset` had
before the call; after a failed call `NextOffset` is unchanged, so the next successful `Append`
hands out that same offset again. -/
theorem append_stamps_record_on_every_path (cd : Codec) (s : Segment) (record : Record)
    (fault : Option Error) :
    (s.Append cd record fault).record.Offset = s.NextOffset ∧
    (s.Append cd record fault).record.Value = record.Value ∧
    (∀ e, (s.Append cd record fault).err = some e →
      (s.Append cd record fault).seg.NextOffset = s.NextOffset ∧
      ∀ (record2 : Record) (fault2 : Option Error),
        ((s.Append cd record fault).seg.Append cd record2 fault2).err = none →
        ((s.Append cd record fault).seg.Append cd record2 fault2).offset = s.NextOffset ∧
        ((s.Append cd record fault).seg.Append cd record2 fault2).record.Offset =
          (s.Append cd record fault).record.Offset) := by
  have hrec : (s.Append cd record fault).record = { record with Offset := s.NextOffset } := by
    rcases Append_cases cd s record fault with ⟨e1, hm⟩ | ⟨p, e1, hm, hf⟩ | ⟨p, hm, hf, hc⟩ |
      ⟨p, hm, hf, hc⟩
    · rw [Append_marshal_error cd s record fault e1 hm]
    · subst hf; rw [Append_store_error cd s record e1 p hm]
    · subst hf; rw [Append_index_full cd s record p hm hc]
    · subst hf; rw [Append_success cd s record p hm hc]
  refine ⟨by rw [hrec], by rw [hrec], ?_⟩
  intro e herr
  have hnext := (Append_err_frame cd s record fault e herr).2.1
  refine ⟨hnext, ?_⟩
  intro record2 fault2 hok
  obtain ⟨p, hm, hf, hc⟩ := Append_ok_inv cd _ record2 fault2 hok
  subst hf
  rw [Append_success cd _ record2 p hm hc, hrec, hnext]
  exact ⟨rfl, rfl⟩

theorem append_stamps_record_on_every_path_witness :
    ((freshSegment 16 testConfig).Append demoCodec testRecord (some Error.osFailure)).err =
      some Error.osFailure ∧
    ((freshSegment 16 testConfig).Append demoCodec testRecord
      (some Error.osFailure)).record.Offset = 16 ∧
    ((freshSegment 16 testConfig).Append demoCodec testRecord
      (some Error.osFailure)).seg.NextOffset = 16 ∧
    ((((freshSegment 16 testConfig).Append demoCodec testRecord
      (some Error.osFailure)).seg).Append demoCodec testRecord none).offset = 16 :=
  ⟨by decide,
   (append_stamps_record_on_every_path demoCodec (freshSegment 16 testConfig) testRecord
      (some Error.osFailure)).1,
   ((append_stamps_record_on_every_path demoCodec (freshSegment 16 testConfig) testRecord
      (some Error.osFailure)).2.2 Error.osFailure (by decide)).1,
   (((append_stamps_record_on_every_path demoCodec (freshSegment 16 testConfig) testRecord
      (some Error.osFailure)).2.2 Error.osFailure (by decide)).2 testRecord none
        (by decide)).1⟩

/-- C17: for `uint64` values `j` and `k > 0`, `nearestMultiple(j, k)` returns `(j / k) * k`
without overflow; that value is a multiple of `k`, at most `j`, less than `k` below `j`, and the
largest such multiple.  For `k = 0` the division panics and nothing is returned. -/
theorem nearestMultiple_rounds_down (j k : Nat) (hj : j < u64) (hk : 0 < k) :
    nearestMultiple j k = some ((j / k) * k) ∧
    k ∣ (j / k) * k ∧
    (j / k) * k ≤ j ∧
    j < (j / k) * k + k ∧
    (∀ m, k ∣ m → m ≤ j → m ≤ (j / k) * k) ∧
    (j / k) * k < u64 ∧
    nearestMultiple j 0 = none := by
  have hle : (j / k) * k ≤ j := Nat.div_mul_le_self j k
  have hlt : (j / k) * k < u64 := lt_of_le_of_lt hle hj
  refine ⟨?_, Dvd.intro_left _ rfl, hle, ?_, ?_, hlt, ?_⟩
  · have hk0 : ¬ k = 0 := by omega
    simp only [nearestMultiple, if_neg hk0, Nat.mod_eq_of_lt hlt]
  · have := Nat.div_add_mod j k
    have := Nat.mod_lt j hk
    rw [Nat.mul_comm]
    omega
  · intro m hdvd hm
    obtain ⟨q, rfl⟩ := hdvd
    have hq : q ≤ j / k := by
      rw [Nat.le_div_iff_mul_le hk, Nat.mul_comm]
      exact hm
    calc k * q = q * k := Nat.mul_comm _ _
      _ ≤ (j / k) * k := Nat.mul_le_mul_right k hq
  · simp [nearestMultiple]

theorem nearestMultiple_rounds_down_witness :
    37 < u64 ∧ 0 < 5 ∧ nearestMultiple 37 5 = some 35 ∧ nearestMultiple 37 0 = none :=
  ⟨by decide, by decide,
   (nearestMultiple_rounds_down 37 5 (by decide) (by decide)).1,
   (nearestMultiple_rounds_down 37 5 (by decide) (by decide)).2.2.2.2.2.2⟩

/-! ## Construction over existing files -/

/-- Whenever `NewSegment` returns a segment, its store and index are the files found (created
empty when absent), measured as found. -/
theorem NewSegment_ok_shape (dir : Files) (B : Nat) (c : Config) (faults : OpenFaults)
    (s : Segment) (h : NewSegment dir B c faults = .ok s) :
    s.store = { file := dir.store.getD [], size := (dir.store.getD []).length } ∧
    s.index = { entries := dir.index.getD [], size := EntWidth * (dir.index.getD []).length,
                cap := c.Segment.MaxIndexBytes } ∧
    s.baseOffset = B ∧ s.config = c := by
  obtain ⟨f1, f2, f3, f4⟩ := faults
  cases f1 with
  | some e => simp [NewSegment, OpenFile] at h
  | none =>
    cases f2 with
    | some e => simp [NewSegment, OpenFile, NewStore] at h
    | none =>
      cases f3 with
      | some e => simp [NewSegment, OpenFile, NewStore] at h
      | none =>
        cases f4 with
        | some e => simp [NewSegment, OpenFile, NewStore, NewIndex] at h
        | none =>
          simp only [NewSegment, OpenFile, NewStore, NewIndex] at h
          split at h
          · cases h; exact ⟨rfl, rfl, rfl, rfl⟩
          · cases h; exact ⟨rfl, rfl, rfl, rfl⟩

theorem Remove_ok (s : Segment) : s.Remove none none none none = .ok Files.empty := rfl

/-- C11, as stated, fails for the zero configuration: after `Remove` the segment constructed
again at the same base offset is empty, yet with both ceilings 0 its `IsMaxed` is true. -/
theorem fresh_segment_maxed_under_zero_config :
    testSegment.Remove none none none none = .ok Files.empty ∧
    NewSegment Files.empty 16 zeroConfig OpenFaults.none = .ok (freshSegment 16 zeroConfig) ∧
    (freshSegment 16 zeroConfig).NextOffset = 16 ∧
    (freshSegment 16 zeroConfig).IsMaxed = true := by
  decide

/-- C11, amended: for every segment, base offset and configuration with both ceilings positive,
a successful `Remove` followed by `NewSegment` at the same base offset yields an empty segment
with `IsMaxed` false and `NextOffset = baseOffset`, whatever the removed segment held. -/
theorem remove_then_new_is_fresh (s s2 : Segment) (dir : Files) (c : Config)
    (f1 f2 f3 f4 : Option Error) (faults : OpenFaults)
    (hstore : 0 < c.Segment.MaxStoreBytes) (hindex : 0 < c.Segment.MaxIndexBytes)
    (hrm : s.Remove f1 f2 f3 f4 = .ok dir)
    (hnew : NewSegment dir s.baseOffset c faults = .ok s2) :
    dir = Files.empty ∧ s2 = freshSegment s.baseOffset c ∧
    s2.IsMaxed = false ∧ s2.NextOffset = s.baseOffset ∧
    s2.store.file = [] ∧ s2.index.entries = [] := by
  have hdir : dir = Files.empty := by
    cases f1 with
    | some e => simp [Segment.Remove, Segment.Close, index.Close] at hrm
    | none =>
      cases f2 with
      | some e => simp [Segment.Remove, Segment.Close, index.Close, Store.Close] at hrm
      | none =>
        cases f3 with
        | some e =>
          simp [Segment.Remove, Segment.Close, index.Close, Store.Close, removeFile] at hrm
        | none =>
          cases f4 with
          | some e =>
            simp [Segment.Remove, Segment.Close, index.Close, Store.Close, removeFile] at hrm
          | none =>
            simp only [Segment.Remove, Segment.Close, index.Close, Store.Close, removeFile,
              Except.ok.injEq] at hrm
            exact hrm.symm
  subst hdir
  obtain ⟨h1, h2, h3, h4⟩ := NewSegment_ok_shape _ _ _ _ _ hnew
  obtain ⟨s3, hs3, _, _, hnil, _⟩ := NewSegment_recovers Files.empty s.baseOffset c
  have hfaults : s2.NextOffset = s.baseOffset := by
    obtain ⟨g1, g2, g3, g4⟩ := faults
    cases g1 with
    | some e => simp [NewSegment, OpenFile] at hnew
    | none =>
      cases g2 with
      | some e => simp [NewSegment, OpenFile, NewStore] at hnew
      | none =>
        cases g3 with
        | some e => simp [NewSegment, OpenFile, NewStore] at hnew
        | none =>
          cases g4 with
          | some e => simp [NewSegment, OpenFile, NewStore, NewIndex] at hnew
          | none =>
            have : NewSegment Files.empty s.baseOffset c ⟨none, none, none, none⟩ =
                .ok (freshSegment s.baseOffset c) := rfl
            rw [this] at hnew
            cases hnew
            rfl
  have hs2 : s2 = freshSegment s.baseOffset c := by
    cases s2
    simp only [freshSegment, Segment.mk.injEq]
    simp only at h1 h2 h3 h4 hfaults
    exact ⟨h1, h2, h3, hfaults, h4⟩
  refine ⟨rfl, hs2, ?_, hfaults, ?_, ?_⟩
  · rw [hs2]
    simp only [Segment.IsMaxed, freshSegment, Bool.or_eq_false_iff, decide_eq_false_iff_not]
    constructor <;> omega
  · rw [hs2]; rfl
  · rw [hs2]; rfl

theorem remove_then_new_is_fresh_witness :
    0 < storeConfig.Segment.MaxStoreBytes ∧ 0 < storeConfig.Segment.MaxIndexBytes ∧
    testSegment.Remove none none none none = .ok Files.empty ∧
    NewSegment Files.empty testSegment.baseOffset storeConfig OpenFaults.none =
      .ok (freshSegment 16 storeConfig) ∧
    (freshSegment 16 storeConfig).IsMaxed = false ∧
    (freshSegment 16 storeConfig).NextOffset = testSegment.baseOffset :=
  ⟨by decide, by decide, by decide, by decide,
   (remove_then_new_is_fresh testSegment (freshSegment 16 storeConfig) Files.empty storeConfig
      none none none none OpenFaults.none (by decide) (by decide) (by decide) (by decide)).2.2.1,
   (remove_then_new_is_fresh testSegment (freshSegment 16 storeConfig) Files.empty storeConfig
      none none none none OpenFaults.none (by decide) (by decide) (by decide)
      (by decide)).2.2.2.1⟩

/-- C12: whenever `NewSegment` returns a segment over a store file that already holds at least
`MaxStoreBytes` bytes (under the configuration passed in), `IsMaxed` is true on that segment
before any append. -/
theorem maxed_on_reopen_by_store (dir : Files) (B : Nat) (c : Config) (faults : OpenFaults)
    (s : Segment) (hnew : NewSegment dir B c faults = .ok s)
    (hfull : c.Segment.MaxStoreBytes ≤ (dir.store.getD []).length) :
    s.IsMaxed = true ∧ s.store.size = (dir.store.getD []).length := by
  obtain ⟨h1, _, _, h4⟩ := NewSegment_ok_shape dir B c faults s hnew
  refine ⟨?_, by rw [h1]⟩
  simp only [Segment.IsMaxed, h1, h4, Bool.or_eq_true, decide_eq_true_eq]
  left
  exact hfull

theorem maxed_on_reopen_by_store_witness :
    ((freshSegment 16 testConfig).after demoCodec testCalls).Close none none = .ok testFiles ∧
    NewSegment testFiles 16 storeConfig OpenFaults.none = .ok testReopened ∧
    storeConfig.Segment.MaxStoreBytes ≤ (testFiles.store.getD []).length ∧
    testReopened.IsMaxed = true :=
  ⟨by decide, by decide, by decide,
   (maxed_on_reopen_by_store testFiles 16 storeConfig OpenFaults.none testReopened (by decide)
      (by decide)).1⟩

/-! ## The record read is the record appended -/

/-- After any run on a fresh segment, reading at an offset of the segment gives back, whole, the
stamped record of the successful call that returned that offset. -/
theorem read_after_run (cd : Codec) (B : Nat) (c : Config) (cs : List Call)
    (off : Nat) (hcd : cd.Lossless) (hB : B < u64) (hc : c.Segment.MaxIndexBytes < u64)
    (h1 : B ≤ off) (h2 : off < ((freshSegment B c).after cd cs).NextOffset) :
    ∃ (r : AppendResult) (d : Call),
      ((freshSegment B c).successes cd cs)[off - B]? = some r ∧ r.offset = off ∧
      d ∈ cs ∧ r.record = { d.record with Offset := off } ∧
      ((freshSegment B c).after cd cs).Read cd off none = .ok r.record := by
  have hcnt := Counted_after cd (freshSegment B c) cs 0 (Counted_fresh B c hB)
  have hrd := Readable_after cd hcd cs (freshSegment B c) [] (Readable_fresh cd B c)
  have hfix := after_fixed cd cs (freshSegment B c)
  have hcapb := index_within_cap_after cd cs (freshSegment B c) (Nat.zero_le _)
  rw [Nat.zero_add] at hcnt
  rw [List.nil_append] at hrd
  have hbase : ((freshSegment B c).after cd cs).baseOffset = B := hfix.1
  have hcap : ((freshSegment B c).after cd cs).index.cap = c.Segment.MaxIndexBytes := hfix.2.2
  have hnext := hcnt.next
  rw [hbase] at hnext
  have hsize := hcnt.index_size
  rw [hcnt.count, EntWidth_eq] at hsize
  rw [hsize, hcap] at hcapb
  have hoff : off < u64 := by
    rw [hnext] at h2
    exact lt_trans h2 (add64_lt _ _)
  have hk : off - B < ((freshSegment B c).successes cd cs).length := by
    rw [hnext] at h2
    unfold add64 u64 at h2
    unfold u64 at hB hc
    omega
  obtain ⟨r, hr⟩ : ∃ r, ((freshSegment B c).successes cd cs)[off - B]? = some r :=
    ⟨_, List.getElem?_eq_getElem hk⟩
  have hroff : r.offset = off := by
    rw [successes_offsets cd cs (freshSegment B c) (off - B) r hB hr]
    have hfr : (freshSegment B c).NextOffset = B := rfl
    rw [hfr]
    unfold add64 u64
    unfold u64 at hoff
    omega
  obtain ⟨d, hd, hrec⟩ := successes_record cd cs (freshSegment B c) r (List.getElem?_mem hr)
  rw [hroff] at hrec
  have hmap : (((freshSegment B c).successes cd cs).map AppendResult.record)[off - B]? =
      some r.record := by
    rw [List.getElem?_map, hr]; rfl
  obtain ⟨e, p, he, hm, hread⟩ := hrd.entry (off - B) r.record hmap
  have hidx : toInt64 (sub64 off ((freshSegment B c).after cd cs).baseOffset) =
      ((off - B : Nat) : Int) := by
    rw [hbase, sub64_of_le off B h1 hoff]
    refine toInt64_of_lt _ ?_
    unfold u64 at hc
    omega
  refine ⟨r, d, hr, hroff, hd, hrec, ?_⟩
  unfold Segment.Read
  rw [hidx, index_Read_ordinal _ _ e he]
  simp only [hread]
  exact (hcd _ p hm).2

/-- C18: on a segment reached from a fresh one by `Append` calls, for every `off` with
`baseOffset ≤ off < NextOffset` the record `Read(off)` returns has `Offset = off`: the offset
was stamped into the record before it was serialised. -/
theorem read_returns_record_with_requested_offset (cd : Codec) (B : Nat) (c : Config)
    (cs : List Call) (off : Nat) (hcd : cd.Lossless) (hB : B < u64)
    (hc : c.Segment.MaxIndexBytes < u64)
    (h1 : ((freshSegment B c).after cd cs).baseOffset ≤ off)
    (h2 : off < ((freshSegment B c).after cd cs).NextOffset) :
    ∃ rec, ((freshSegment B c).after cd cs).Read cd off none = .ok rec ∧ rec.Offset = off := by
  rw [(after_fixed cd cs (freshSegment B c)).1] at h1
  obtain ⟨r, d, _, _, _, hrec, hread⟩ := read_after_run cd B c cs off hcd hB hc h1 h2
  exact ⟨r.record, hread, by rw [hrec]⟩

theorem read_returns_record_with_requested_offset_witness :
    testSegment.baseOffset ≤ 18 ∧ 18 < testSegment.NextOffset ∧
    ∃ rec, testSegment.Read demoCodec 18 none = .ok rec ∧ rec.Offset = 18 :=
  ⟨by decide, by decide,
   read_returns_record_with_requested_offset demoCodec 16 testConfig (testCalls.take 3) 18
     demoCodec_lossless (by decide) (by decide) (by decide) (by decide)⟩

/-! ## Where the index points -/

theorem take_drop_append_stable (file x : Bytes) (pos n : Nat) (h : pos + n ≤ file.length) :
    ((file ++ x).drop pos).take n = (file.drop pos).take n := by
  rw [List.drop_append_of_le_length (by omega)]
  rw [List.take_append_of_le_length (by rw [List.length_drop]; omega)]

theorem Placed_step_ok (cd : Codec) (s : Segment) (record : Record) (fault : Option Error)
    (recs : List Record) (h : Placed cd s recs)
    (hok : (s.Append cd record fault).err = none) :
    Placed cd (s.Append cd record fault).seg (recs ++ [(s.Append cd record fault).record]) := by
  obtain ⟨p, hm, hf, hc⟩ := Append_ok_inv cd s record fault hok
  subst hf
  rw [Append_success cd s record p hm hc]
  have hx : (be64 p.length ++ p).length = lenWidth + p.length := by
    rw [List.length_append, be64_length]
  refine ⟨?_, ?_, ?_⟩
  · simp only [List.length_append, be64_length]
    have hsz := h.store_size
    omega
  · simp only [List.length_append, List.length_singleton]
    rw [h.count]
  · intro i r hr
    simp only at hr ⊢
    by_cases hi : i < recs.length
    · rw [List.getElem?_append_left hi] at hr
      obtain ⟨e, q, he, hq, hle, hbytes⟩ := h.entry i r hr
      refine ⟨e, q, ?_, hq, ?_, ?_⟩
      · rw [List.getElem?_append_left (by rw [h.count]; exact hi)]
        exact he
      · rw [List.length_append]; omega
      · rw [take_drop_append_stable _ _ _ _ hle]
        exact hbytes
    · have hi2 : recs.length ≤ i := by omega
      rw [List.getElem?_append_right hi2] at hr
      by_cases h0 : i - recs.length = 0
      · rw [h0] at hr
        simp only [List.getElem?_cons_zero, Option.some.injEq] at hr
        subst hr
        refine ⟨(toU32 (sub64 s.NextOffset s.baseOffset), s.store.size), p, ?_, hm, ?_, ?_⟩
        · rw [List.getElem?_append_right (by rw [h.count]; exact hi2)]
          have : i - s.index.entries.length = 0 := by rw [h.count]; exact h0
          rw [this]
          rfl
        · simp only [List.length_append, be64_length]
          have hsz := h.store_size
          omega
        · simp only
          rw [h.store_size, List.drop_left, ← hx, List.take_length]
      · obtain ⟨j, hj⟩ := Nat.exists_eq_succ_of_ne_zero h0
        rw [hj] at hr
        simp at hr

theorem Placed_step_err (cd : Codec) (s : Segment) (record : Record) (fault : Option Error)
    (recs : List Record) (e : Error) (h : Placed cd s recs)
    (herr : (s.Append cd record fault).err = some e) :
    Placed cd (s.Append cd record fault).seg recs := by
  rcases Append_cases cd s record fault with ⟨e1, hm⟩ | ⟨p, e1, hm, hf⟩ | ⟨p, hm, hf, hc⟩ |
    ⟨p, hm, hf, hc⟩
  · rw [Append_marshal_error cd s record fault e1 hm]; exact h
  · subst hf; rw [Append_store_error cd s record e1 p hm]; exact h
  · subst hf
    rw [Append_index_full cd s record p hm hc]
    refine ⟨?_, h.count, ?_⟩
    · simp only [List.length_append, be64_length]
      have hsz := h.store_size
      omega
    · intro i r hr
      obtain ⟨en, q, he, hq, hle, hbytes⟩ := h.entry i r hr
      refine ⟨en, q, he, hq, ?_, ?_⟩
      · simp only [List.length_append]; omega
      · simp only
        rw [take_drop_append_stable _ _ _ _ hle]
        exact hbytes
  · subst hf; rw [Append_success cd s record p hm hc] at herr; cases herr

theorem Placed_after (cd : Codec) (cs : List Call) :
    ∀ (s : Segment) (recs : List Record), Placed cd s recs →
      Placed cd (s.after cd cs) (recs ++ (s.successes cd cs).map AppendResult.record) := by
  induction cs with
  | nil => intro s recs h; simpa [Segment.after, successes_nil] using h
  | cons c cs ih =>
    intro s recs h
    cases herr : (s.Append cd c.record c.fault).err with
    | none =>
      rw [successes_cons_ok cd s c cs herr]
      have := ih _ _ (Placed_step_ok cd s c.record c.fault recs h herr)
      simpa [Segment.after] using this
    | some e =>
      rw [successes_cons_err cd s c cs e herr]
      exact ih _ _ (Placed_step_err cd s c.record c.fault recs e h herr)

theorem Placed_fresh (cd : Codec) (B : Nat) (c : Config) : Placed cd (freshSegment B c) [] := by
  refine ⟨rfl, rfl, ?_⟩
  intro i r hr
  simp at hr

/-- C15, as stated, fails: with an index region of `2 ^ 32 + 1` entries, after `2 ^ 32 + 1`
successful appends the entry at ordinal `2 ^ 32` carries relative offset 0, not `2 ^ 32`. -/
theorem index_offset_wraps_at_uint32 :
    ((freshSegment 0 wideConfig).after demoCodec wideCalls).index.entries.length = u32 + 1 ∧
    (((freshSegment 0 wideConfig).after demoCodec wideCalls).index.entries[u32]?).map Prod.fst
      = some 0 := by
  have hrun : Counted ((freshSegment 0 wideConfig).after demoCodec wideCalls) (u32 + 1) ∧
      ((freshSegment 0 wideConfig).successes demoCodec wideCalls).length = u32 + 1 :=
    replicate_run (u32 + 1) 0 wideConfig (by decide) (by rw [Nat.mul_comm]; exact le_refl _)
  obtain ⟨hcnt, _⟩ := hrun
  refine ⟨hcnt.count, ?_⟩
  have hlt : u32 < ((freshSegment 0 wideConfig).after demoCodec wideCalls).index.entries.length := by
    rw [hcnt.count]; exact Nat.lt_succ_self _
  have hget := List.getElem?_eq_getElem hlt
  have hoff := hcnt.offs _ _ hget
  rw [hget]
  show some _ = some 0
  rw [hoff]
  decide

/-- C15, amended: in every state reached from a fresh segment by `Append` calls (successful or
failed) the index holds one entry per successful append; the `i`-th entry carries the relative
offset `i` cut to 32 bits, which is exactly `i` for `i < 2 ^ 32` (so the offsets of the first
`2 ^ 32` entries increase strictly without gaps); and its position is the byte offset in the
store at which the length word and the serialised record of the `i`-th successful append
begin. -/
theorem index_is_dense (cd : Codec) (B : Nat) (c : Config) (cs : List Call) (hB : B < u64) :
    ((freshSegment B c).after cd cs).index.entries.length =
      ((freshSegment B c).successes cd cs).length ∧
    ((freshSegment B c).after cd cs).index.size =
      EntWidth * ((freshSegment B c).successes cd cs).length ∧
    (∀ (i : Nat) (e : Nat × Nat),
      ((freshSegment B c).after cd cs).index.entries[i]? = some e →
        e.1 = toU32 i ∧ (i < u32 → e.1 = i) ∧
        ∃ (r : AppendResult) (p : Bytes),
          ((freshSegment B c).successes cd cs)[i]? = some r ∧
          cd.Marshal r.record = .ok p ∧
          e.2 + (lenWidth + p.length) ≤ ((freshSegment B c).after cd cs).store.size ∧
          (((freshSegment B c).after cd cs).store.file.drop e.2).take (lenWidth + p.length) =
            be64 p.length ++ p) ∧
    (∀ (i j : Nat) (ei ej : Nat × Nat), i < j → j < u32 →
      ((freshSegment B c).after cd cs).index.entries[i]? = some ei →
      ((freshSegment B c).after cd cs).index.entries[j]? = some ej → ei.1 < ej.1) := by
  have hcnt := Counted_after cd (freshSegment B c) cs 0 (Counted_fresh B c hB)
  have hpl := Placed_after cd cs (freshSegment B c) [] (Placed_fresh cd B c)
  rw [Nat.zero_add] at hcnt
  rw [List.nil_append] at hpl
  have hsmall : ∀ i : Nat, i < u32 → toU32 i = i := fun i hi => Nat.mod_eq_of_lt hi
  refine ⟨hcnt.count, ?_, ?_, ?_⟩
  · rw [hcnt.index_size, hcnt.count]
  · intro i e he
    have hoff := hcnt.offs i e he
    refine ⟨hoff, fun hi => by rw [hoff, hsmall i hi], ?_⟩
    have hi : i < ((freshSegment B c).successes cd cs).length := by
      rw [← hcnt.count]
      exact (List.getElem?_eq_some.mp he).1
    have hr := List.getElem?_eq_getElem hi
    have hmap : (((freshSegment B c).successes cd cs).map AppendResult.record)[i]? =
        some (((freshSegment B c).successes cd cs)[i]).record := by
      rw [List.getElem?_map, hr]; rfl
    obtain ⟨e2, p, he2, hm, hle, hbytes⟩ := hpl.entry i _ hmap
    have hee : e2 = e := by
      rw [he] at he2
      exact (Option.some.inj he2).symm
    subst hee
    exact ⟨_, p, hr, hm, by rw [hpl.store_size]; exact hle, hbytes⟩
  · intro i j ei ej hij hj hei hej
    rw [hcnt.offs i ei hei, hcnt.offs j ej hej, hsmall i (by omega), hsmall j hj]
    exact hij

theorem index_is_dense_witness :
    16 < u64 ∧
    ((freshSegment 16 testConfig).after demoCodec testCalls).index.entries.length =
      ((freshSegment 16 testConfig).successes demoCodec testCalls).length ∧
    ((freshSegment 16 testConfig).after demoCodec testCalls).index.entries =
      [(0, 0), (1, 27), (2, 54)] :=
  ⟨by decide, (index_is_dense demoCodec 16 testConfig testCalls (by decide)).1, by decide⟩

/-- C16, as stated, fails: with `MaxIndexBytes = 12 * (2 ^ 32 + 1)`, after `2 ^ 32` successful
appends `NextOffset - baseOffset` is `2 ^ 32`, the next `Append` still writes an index entry, and
the conversion to `uint32` turns the relative offset into 0. -/
theorem relative_offset_exceeds_uint32 :
    sub64 ((freshSegment 0 wideConfig).after demoCodec fullCalls).NextOffset
      ((freshSegment 0 wideConfig).after demoCodec fullCalls).baseOffset = u32 ∧
    (((freshSegment 0 wideConfig).after demoCodec fullCalls).Append demoCodec testRecord
      none).err = none ∧
    toU32 (sub64 ((freshSegment 0 wideConfig).after demoCodec fullCalls).NextOffset
      ((freshSegment 0 wideConfig).after demoCodec fullCalls).baseOffset) = 0 := by
  have hrun : Counted ((freshSegment 0 wideConfig).after demoCodec fullCalls) u32 ∧
      ((freshSegment 0 wideConfig).successes demoCodec fullCalls).length = u32 :=
    replicate_run u32 0 wideConfig (by decide) (by decide)
  obtain ⟨hcnt, _⟩ := hrun
  have hfix := after_fixed demoCodec fullCalls (freshSegment 0 wideConfig)
  have hbase : ((freshSegment 0 wideConfig).after demoCodec fullCalls).baseOffset = 0 := hfix.1
  have hcap : ((freshSegment 0 wideConfig).after demoCodec fullCalls).index.cap =
      EntWidth * (u32 + 1) := hfix.2.2
  have hnext : ((freshSegment 0 wideConfig).after demoCodec fullCalls).NextOffset = u32 := by
    rw [hcnt.next, hbase]; decide
  have hsize := hcnt.index_size
  rw [hcnt.count] at hsize
  have hm : demoCodec.Marshal
      { testRecord with
        Offset := ((freshSegment 0 wideConfig).after demoCodec fullCalls).NextOffset } =
      .ok (be64 u32 ++ testRecord.Value) := by
    rw [hnext]; decide
  have hroom : ((freshSegment 0 wideConfig).after demoCodec fullCalls).index.size + EntWidth ≤
      ((freshSegment 0 wideConfig).after demoCodec fullCalls).index.cap := by
    rw [hsize, hcap]; decide
  refine ⟨?_, ?_, ?_⟩
  · rw [hnext, hbase]; decide
  · rw [Append_success demoCodec _ testRecord _ hm hroom]
  · rw [hnext, hbase]; decide

/-- C16, amended: when `MaxIndexBytes < 12 * (2 ^ 32 + 1)`, in every state reached from a fresh
segment in which `Append` writes an index entry, `NextOffset - baseOffset` is below `2 ^ 32` and
equals the number of records held, so the conversion to `uint32` loses nothing and the entry
written carries the true relative offset. -/
theorem relative_offset_fits_uint32 (cd : Codec) (B : Nat) (c : Config) (cs : List Call)
    (record : Record) (fault : Option Error) (hB : B < u64)
    (hc : c.Segment.MaxIndexBytes < EntWidth * (u32 + 1))
    (hok : (((freshSegment B c).after cd cs).Append cd record fault).err = none) :
    sub64 ((freshSegment B c).after cd cs).NextOffset
      ((freshSegment B c).after cd cs).baseOffset < u32 ∧
    toU32 (sub64 ((freshSegment B c).after cd cs).NextOffset
      ((freshSegment B c).after cd cs).baseOffset) =
      sub64 ((freshSegment B c).after cd cs).NextOffset
        ((freshSegment B c).after cd cs).baseOffset ∧
    sub64 ((freshSegment B c).after cd cs).NextOffset
      ((freshSegment B c).after cd cs).baseOffset =
      ((freshSegment B c).after cd cs).index.entries.length ∧
    (((freshSegment B c).after cd cs).Append cd record fault).seg.index.entries =
      ((freshSegment B c).after cd cs).index.entries ++
        [(((freshSegment B c).after cd cs).index.entries.length,
          ((freshSegment B c).after cd cs).store.size)] := by
  have hcnt := Counted_after cd (freshSegment B c) cs 0 (Counted_fresh B c hB)
  have hfix := after_fixed cd cs (freshSegment B c)
  obtain ⟨p, hm, hf, hroom⟩ := Append_ok_inv cd _ record fault hok
  subst hf
  have hcap : ((freshSegment B c).after cd cs).index.cap = c.Segment.MaxIndexBytes := hfix.2.2
  have hsize := hcnt.index_size
  rw [hcap, hsize] at hroom
  have hlen : ((freshSegment B c).after cd cs).index.entries.length < u32 := by
    rw [EntWidth_eq] at hroom hc
    unfold u32 at hc ⊢
    omega
  have hsub : sub64 ((freshSegment B c).after cd cs).NextOffset
      ((freshSegment B c).after cd cs).baseOffset =
      ((freshSegment B c).after cd cs).index.entries.length := by
    rw [hcnt.next, sub64_add64 _ _ hcnt.base_lt, ← hcnt.count]
    refine Nat.mod_eq_of_lt ?_
    unfold u32 at hlen
    unfold u64
    omega
  have hroom2 : ((freshSegment B c).after cd cs).index.size + EntWidth ≤
      ((freshSegment B c).after cd cs).index.cap := by
    rw [hcap, hsize]; exact hroom
  refine ⟨by rw [hsub]; exact hlen, ?_, hsub, ?_⟩
  · rw [hsub]; exact Nat.mod_eq_of_lt hlen
  · rw [Append_success cd _ record p hm hroom2]
    simp only
    rw [hsub]
    have : toU32 ((freshSegment B c).after cd cs).index.entries.length =
        ((freshSegment B c).after cd cs).index.entries.length := Nat.mod_eq_of_lt hlen
    rw [this]

theorem relative_offset_fits_uint32_witness :
    testConfig.Segment.MaxIndexBytes < EntWidth * (u32 + 1) ∧
    (((freshSegment 16 testConfig).after demoCodec (testCalls.take 2)).Append demoCodec
      testRecord none).err = none ∧
    sub64 ((freshSegment 16 testConfig).after demoCodec (testCalls.take 2)).NextOffset
      ((freshSegment 16 testConfig).after demoCodec (testCalls.take 2)).baseOffset < u32 :=
  ⟨by decide, by decide,
   (relative_offset_fits_uint32 demoCodec 16 testConfig (testCalls.take 2) testRecord none
      (by decide) (by decide) (by decide)).1⟩

end Log
